import Mathlib

/-!
Verification of the documentation indexing and concurrent search engine of
krakend/mcp-server, shallowly embedded in Lean 4.

Go strings are modelled as `List Char` (the corpus is ASCII text; Go byte
positions coincide with rune positions on such inputs).  Every recursive
string helper is either structurally recursive or fuelled with an explicit
fuel that is proved (or chosen) sufficient, so that all definitions reduce
inside the kernel.
-/

set_option maxHeartbeats 1000000

namespace DocEngine

/-- A Go string, modelled as its list of characters. -/
abbrev Str := List Char

/-- Convert a Lean string literal to the `Str` model. -/
def lit (s : String) : Str := s.data

/-- Characters that Go's `strings.TrimSpace` removes (ASCII fragment of
`unicode.IsSpace`). -/
def isGoSpace (c : Char) : Bool :=
  c = ' ' || c = '\t' || c = '\n' || c = '\x0b' || c = '\x0c' || c = '\r'

/-- Remove leading Go whitespace. -/
def trimLeft (s : Str) : Str := s.dropWhile isGoSpace

/-- Remove trailing Go whitespace. -/
def trimRight (s : Str) : Str := (s.reverse.dropWhile isGoSpace).reverse

/-- Go `strings.TrimSpace` (ASCII fragment). -/
def trimSpace (s : Str) : Str := trimRight (trimLeft s)

/-- Go `strings.HasPrefix`. -/
def startsWithL (s pat : Str) : Bool :=
  match pat, s with
  | [], _ => true
  | _ :: _, [] => false
  | p :: ps, c :: cs => p = c && startsWithL cs ps

/-- Go `strings.TrimLeft(s, "#")`: drop every leading `#`. -/
def dropHashes (s : Str) : Str := s.dropWhile (fun c => c = '#')

/-- Index of the first occurrence of `pat` (non-empty) in `s`, if any. -/
def findSub (pat s : Str) : Option Nat :=
  match s with
  | [] => if startsWithL [] pat then some 0 else none
  | _ :: cs =>
    if startsWithL s pat then some 0
    else (findSub pat cs).map (· + 1)

/-- Go `strings.Contains`. -/
def containsSub (s pat : Str) : Bool := (findSub pat s).isSome

/-- Fuelled worker for `splitOnL`.  The fuel only has to dominate the
number of separator occurrences; `s.length + 1` always suffices. -/
def splitOnF (fuel : Nat) (pat s : Str) : List Str :=
  match fuel with
  | 0 => [s]
  | fuel + 1 =>
    match findSub pat s with
    | none => [s]
    | some i => s.take i :: splitOnF fuel pat (s.drop (i + pat.length))

/-- Go `strings.Split(s, pat)` for a non-empty separator `pat`. -/
def splitOnL (pat s : Str) : List Str := splitOnF (s.length + 1) pat s

/-- Go `strings.Join`. -/
def joinWith (sep : Str) (parts : List Str) : Str :=
  match parts with
  | [] => []
  | [p] => p
  | p :: rest => p ++ sep ++ joinWith sep rest

/-- The last `n` characters of `s` (Go `s[len(s)-n:]` when `n ≤ len s`). -/
def lastN (n : Nat) (s : Str) : Str := s.drop (s.length - n)

/-- Decimal digits of a natural number, fuelled (Go `strconv.Itoa` for
non-negative values). -/
def natStrF (fuel n : Nat) : Str :=
  match fuel with
  | 0 => []
  | fuel + 1 =>
    if n < 10 then [Char.ofNat (48 + n)]
    else natStrF fuel (n / 10) ++ [Char.ofNat (48 + n % 10)]

/-- Go `strconv.Itoa` on a natural number. -/
def natStr (n : Nat) : Str := natStrF (n + 1) n

/-- Parse a decimal digit. -/
def digitVal (c : Char) : Option Nat :=
  if 48 ≤ c.toNat && c.toNat ≤ 57 then some (c.toNat - 48) else none

/-- Go `strconv.Atoi` restricted to unsigned decimal numerals: `some n`
exactly when the string is a non-empty run of digits. -/
def parsePid (s : Str) : Option Nat :=
  match s with
  | [] => none
  | _ =>
    s.foldl (fun acc c =>
      match acc, digitVal c with
      | some n, some d => some (n * 10 + d)
      | _, _ => none) (some 0)

/-- `true` iff `s` contains the two-character link-markup sequence `](`. -/
def hasJoinPair (s : Str) : Bool :=
  match s with
  | a :: b :: t => (a = ']' && b = '(') || hasJoinPair (b :: t)
  | _ => false

/-! ## Chunking constants (`internal/indexing`, constants file) -/

/-- `TargetChunkTokens`: the optimal chunk size (~2000 chars). -/
def TargetChunkTokens : Nat := 500

/-- `MaxChunkTokens`: the maximum before subdividing (~3200 chars). -/
def MaxChunkTokens : Nat := 800

/-- `OverlapTokens`: the overlap between consecutive chunks (~400 chars). -/
def OverlapTokens : Nat := 100

/-- `CharsPerToken`: the approximation for token estimation. -/
def CharsPerToken : Nat := 4

/-- `IndexSchemaVersion`: increments when chunking logic changes. -/
def IndexSchemaVersion : Nat := 2

/-- `maxChars` as computed inside `SubdivideChunk`:
`MaxChunkTokens * CharsPerToken = 3200`. -/
def maxChars : Nat := MaxChunkTokens * CharsPerToken

/-- `overlapChars` as computed inside `SubdivideChunk`:
`OverlapTokens * CharsPerToken = 400`. -/
def overlapChars : Nat := OverlapTokens * CharsPerToken

/-! ## Data model (`internal/indexing/types.go`) -/

/-- `DocChunk` represents a documentation chunk in the search index.
Field names follow the Go struct (lower-cased). -/
structure DocChunk where
  id : Str := []
  page : Str := []
  category : Str := []
  subcategory : Str := []
  content : Str := []
  url : Str := []
  breadcrumb : Str := []
  keywords : List Str := []
  tokenCount : Nat := 0
  deriving DecidableEq, Inhabited

/-! ## Markdown helpers (`internal/indexing`, markdown/metadata helpers) -/

/-- Parse one markdown link `[text](target)` at the head of `s`.  This is
exactly the (deterministic) leftmost match of Go's regular expression
`\[([^\]]+)\]\([^\)]+\)` anchored at the current position: a `[`, one or
more non-`]` characters, `](`, one or more non-`)` characters, `)`.
Returns the link text, the target, and the remainder after the match. -/
def linkParse (s : Str) : Option (Str × Str × Str) :=
  match s with
  | '[' :: rest =>
    let text := rest.takeWhile (fun c => c ≠ ']')
    let rest1 := rest.dropWhile (fun c => c ≠ ']')
    match text, rest1 with
    | _ :: _, ']' :: '(' :: rest2 =>
      let url := rest2.takeWhile (fun c => c ≠ ')')
      let rest3 := rest2.dropWhile (fun c => c ≠ ')')
      match url, rest3 with
      | _ :: _, ')' :: rest4 => some (text, url, rest4)
      | _, _ => none
    | _, _ => none
  | _ => none

/-- Fuelled worker for `StripMarkdownLinks`: replace every (leftmost,
non-overlapping) markdown link by its text.  Each recursive call consumes
at least one character, so fuel `s.length` suffices. -/
def stripLinksF (fuel : Nat) (s : Str) : Str :=
  match fuel, s with
  | 0, s => s
  | _, [] => []
  | fuel + 1, c :: t =>
    match linkParse (c :: t) with
    | some (text, _, rest) => text ++ stripLinksF fuel rest
    | none => c :: stripLinksF fuel t

/-- `StripMarkdownLinks` removes markdown link syntax, keeping only the
text: `"[Text](url)" -> "Text"` (Go `markdownLinkRegex.ReplaceAllString`). -/
def StripMarkdownLinks (s : Str) : Str := stripLinksF s.length s

/-- Fuelled worker for `ExtractURLFromMarkdown`: the target of the first
markdown link in `s`, or `""`. -/
def extractURLF (fuel : Nat) (s : Str) : Str :=
  match fuel, s with
  | 0, _ => []
  | _, [] => []
  | fuel + 1, c :: t =>
    match linkParse (c :: t) with
    | some (_, url, _) => url
    | none => extractURLF fuel t

/-- `ExtractURLFromMarkdown` extracts the URL from the first markdown link
(Go `urlExtractRegex.FindStringSubmatch`, second capture group). -/
def ExtractURLFromMarkdown (s : Str) : Str := extractURLF s.length s

/-- `EstimateTokens` estimates the token count for a text string:
`len(text) / CharsPerToken`. -/
def EstimateTokens (s : Str) : Nat := s.length / CharsPerToken

/-- Keyword characters kept by `ExtractKeywords`'s `strings.TrimFunc`:
lower-case letters and digits. -/
def isKeywordChar (c : Char) : Bool :=
  ('a' ≤ c && c ≤ 'z') || ('0' ≤ c && c ≤ '9')

/-- Trim characters failing `isKeywordChar` from both ends of a word. -/
def trimNonKeyword (s : Str) : Str :=
  ((s.dropWhile (fun c => !isKeywordChar c)).reverse.dropWhile
    (fun c => !isKeywordChar c)).reverse

/-- The stop-word list of `ExtractKeywords`. -/
def stopWords : List Str :=
  [lit "the", lit "a", lit "an", lit "and", lit "or",
   lit "but", lit "in", lit "on", lit "at", lit "to",
   lit "for", lit "of", lit "as", lit "by", lit "is",
   lit "it", lit "be", lit "with", lit "from", lit "that"]

/-- Fuelled `strings.Fields`: split around runs of whitespace. -/
def fieldsF (fuel : Nat) (s : Str) : List Str :=
  match fuel with
  | 0 => []
  | fuel + 1 =>
    let s := s.dropWhile isGoSpace
    match s with
    | [] => []
    | _ =>
      let w := s.takeWhile (fun c => !isGoSpace c)
      w :: fieldsF fuel (s.dropWhile (fun c => !isGoSpace c))

/-- Go `strings.Fields`. -/
def fieldsL (s : Str) : List Str := fieldsF (s.length + 1) s

/-- Go `strings.ToLower` (ASCII). -/
def toLowerL (s : Str) : Str := s.map Char.toLower

/-- Deduplicate, keeping the first occurrence of each element.  Go
collects keywords in a map and iterates it in unspecified order; this
model fixes first-occurrence order (no claim depends on the order). -/
def dedupFirstF (fuel : Nat) (l : List Str) : List Str :=
  match fuel, l with
  | 0, l => l
  | _, [] => []
  | fuel + 1, x :: t => x :: (dedupFirstF fuel (t.filter (fun y => y ≠ x)))

/-- Deduplication entry point; fuel `l.length` always suffices. -/
def dedupFirst (l : List Str) : List Str := dedupFirstF l.length l

/-- `ExtractKeywords` extracts key terms from title and content: words of
the lowered title plus words of the first 200 content characters, trimmed
to keyword characters, keeping words of length `> 2` that are not stop
words, deduplicated, capped at 10. -/
def ExtractKeywords (title content : Str) : List Str :=
  let words := fieldsL (toLowerL title) ++ fieldsL (toLowerL (content.take 200))
  let kept := (words.map trimNonKeyword).filter
    (fun w => 2 < w.length && !stopWords.contains w)
  (dedupFirst kept).take 10

/-- `CreateAnchor` creates a URL anchor from text: lower-case, spaces to
hyphens, keep only `[a-z0-9-]` (Go's final backtick removal is subsumed
by that filter). -/
def CreateAnchor (text : Str) : Str :=
  ((toLowerL (trimSpace text)).map (fun c => if c = ' ' then '-' else c)).filter
    (fun c => ('a' ≤ c && c ≤ 'z') || ('0' ≤ c && c ≤ '9') || c = '-')

/-- Worker for `ExtractFirstHeader`: the first line whose trimmed form
starts with `###`. -/
def firstHeaderOfLines (lines : List Str) : Str :=
  match lines with
  | [] => []
  | l :: rest =>
    let t := trimSpace l
    if startsWithL t (lit "###") then
      StripMarkdownLinks (trimSpace (dropHashes t))
    else firstHeaderOfLines rest

/-- `ExtractFirstHeader` extracts the first `###`-prefixed header from
content (the Go comment says H3–H5, but the code accepts any line whose
trimmed form starts with `###`, including H6+). -/
def ExtractFirstHeader (content : Str) : Str :=
  firstHeaderOfLines (splitOnL (lit "\n") content)

/-- `EnrichMetadata` adds breadcrumb, keywords, URL, and token count to a
chunk. -/
def EnrichMetadata (chunk : DocChunk) (breadcrumbParts : List Str) (baseURL : Str) :
    DocChunk :=
  let crumb :=
    (if chunk.page ≠ [] then [chunk.page] else []) ++
    (if chunk.category ≠ [] ∧ chunk.category ≠ chunk.page then [chunk.category] else []) ++
    (if chunk.subcategory ≠ [] ∧ chunk.subcategory ≠ chunk.category then [chunk.subcategory] else [])
  let chunk :=
    if crumb ≠ [] then { chunk with breadcrumb := joinWith (lit " > ") crumb } else chunk
  let chunk :=
    if baseURL ≠ [] then
      if 1 < breadcrumbParts.length then
        { chunk with url := baseURL ++ '#' :: CreateAnchor chunk.subcategory }
      else { chunk with url := baseURL }
    else chunk
  { chunk with
    keywords := ExtractKeywords chunk.subcategory chunk.content,
    tokenCount := EstimateTokens chunk.content }

/-! ## `ForceSplitText` (`internal/indexing`, chunking) -/

/-- A word-boundary cut character: space or newline. -/
def isCutChar (c : Char) : Bool := c = ' ' || c = '\n'

/-- `text[i]` with an out-of-range sentinel that is not a cut character
(the scan below only reads in-range positions). -/
def charAt (text : Str) (i : Nat) : Char := text.getD i 'x'

/-- The word-boundary look-back loop of `ForceSplitText`:
`for i := chunkSize; i > chunkSize-100 && i > 0; i-- { if text[i] == ' ' || text[i] == '\n' { chunkSize = i; break } }`.
`cs0` is the original chunk size, `i` the loop counter (started at `cs0`);
if no boundary is found the original `cs0` is kept. -/
def lookBack (text : Str) (cs0 : Nat) : Nat → Nat
  | 0 => cs0
  | i + 1 =>
    if cs0 < i + 1 + 100 then
      if isCutChar (charAt text (i + 1)) then i + 1 else lookBack text cs0 i
    else cs0

/-- One iteration of the `ForceSplitText` loop: compute the cut position,
emit the part `text[:chunkSize]`, and advance (with overlap when
`chunkSize+overlapChars < len(text)`). -/
def forceStep (text : Str) (mc oc : Nat) : Str × Str :=
  let cs0 := min mc text.length
  let cs := if cs0 < text.length then lookBack text cs0 cs0 else cs0
  let part := text.take cs
  let rest := if cs + oc < text.length then text.drop (cs - oc) else text.drop cs
  (part, rest)

/-- Fuelled `ForceSplitText` loop.  `none` means the fuel ran out (for the
engine's constants this never happens, see the termination theorem). -/
def fstF : Nat → Str → Nat → Nat → Option (List Str)
  | _, [], _, _ => some []
  | 0, _ :: _, _, _ => none
  | fuel + 1, text, mc, oc =>
    let pr := forceStep text mc oc
    (fstF fuel pr.2 mc oc).map (pr.1 :: ·)

/-- `ForceSplitText` splits text by character count at word boundaries.
With the engine's constants each iteration strictly shrinks the text, so
fuel `text.length + 1` is sufficient. -/
def ForceSplitText (text : Str) (mc oc : Nat) : List Str :=
  (fstF (text.length + 1) text mc oc).getD []

/-! ## `SubdivideChunk` (`internal/indexing`, chunking) -/

/-- `improveSubchunkTitle`: use the first `###`+ header of the content as
subcategory; otherwise, for `partIndex > 0`, synthesize
`"<category> (part N)"`; otherwise leave the subcategory unchanged. -/
def improveSubchunkTitle (subchunk : DocChunk) (originalCategory : Str)
    (partIndex : Nat) : DocChunk :=
  let firstHeader := ExtractFirstHeader subchunk.content
  if firstHeader ≠ [] then
    { subchunk with subcategory := firstHeader }
  else if 0 < partIndex then
    { subchunk with
      subcategory := originalCategory ++ lit " (part " ++ natStr (partIndex + 1) ++ lit ")" }
  else subchunk

/-- Build, title-improve and enrich one sub-chunk of `chunk` with the
given running index and content (the common body of every emission site
inside `SubdivideChunk`). -/
def mkSub (chunk : DocChunk) (bc : List Str) (baseURL : Str) (idx : Nat)
    (content : Str) : DocChunk :=
  EnrichMetadata
    (improveSubchunkTitle
      { id := chunk.id ++ lit "_sub" ++ natStr idx,
        page := chunk.page,
        category := chunk.category,
        subcategory := chunk.subcategory,
        content := content }
      chunk.category idx)
    bc baseURL

/-- The sentence fallback of `SubdivideChunk`: split on `". "` and append
`"."` back to every piece but the last. -/
def addDots : List Str → List Str
  | [] => []
  | [x] => [x]
  | x :: rest => (x ++ ['.']) :: addDots rest

/-- The mutable loop state of `SubdivideChunk`: emitted sub-chunks, the
current accumulation buffer, the previous sub-chunk content, and the
running sub-chunk index. -/
structure SubSt where
  subs : List DocChunk := []
  cur : Str := []
  prev : Str := []
  idx : Nat := 0
  deriving DecidableEq, Inhabited

/-- One iteration of the paragraph loop of `SubdivideChunk`. -/
def subStep (chunk : DocChunk) (bc : List Str) (baseURL : Str)
    (st : SubSt) (para : Str) : SubSt :=
  let pt := trimSpace para
  if pt = [] then st
  else if MaxChunkTokens < EstimateTokens pt then
    -- an oversized paragraph: flush the buffer, then force-split it
    let st1 :=
      if st.cur ≠ [] then
        let content :=
          if st.prev ≠ [] ∧ overlapChars < st.prev.length then
            lastN overlapChars st.prev ++ lit "\n\n" ++ st.cur
          else st.cur
        { subs := st.subs ++ [mkSub chunk bc baseURL st.idx content],
          cur := [], prev := st.cur, idx := st.idx + 1 }
      else st
    (ForceSplitText pt maxChars overlapChars).foldl
      (fun s p =>
        { subs := s.subs ++ [mkSub chunk bc baseURL s.idx p],
          cur := s.cur, prev := p, idx := s.idx + 1 })
      st1
  else
    let test := if st.cur = [] then pt else st.cur ++ lit "\n\n" ++ pt
    let st2 :=
      if TargetChunkTokens < EstimateTokens test then
        let content :=
          if st.cur ≠ [] then
            if st.prev ≠ [] ∧ overlapChars < st.prev.length then
              lastN overlapChars st.prev ++ lit "\n\n" ++ st.cur
            else if st.prev ≠ [] then
              st.prev ++ lit "\n\n" ++ st.cur
            else st.cur
          else st.prev
        { subs := st.subs ++ [mkSub chunk bc baseURL st.idx content],
          cur := [], prev := st.cur, idx := st.idx + 1 }
      else st
    { st2 with cur := if st2.cur = [] then pt else st2.cur ++ lit "\n\n" ++ pt }

/-- The final flush after the paragraph loop of `SubdivideChunk`. -/
def subFinish (chunk : DocChunk) (bc : List Str) (baseURL : Str)
    (st : SubSt) : List DocChunk :=
  if st.cur ≠ [] then
    let content :=
      if st.prev ≠ [] ∧ overlapChars < st.prev.length then
        lastN overlapChars st.prev ++ lit "\n\n" ++ st.cur
      else st.prev ++ lit "\n\n" ++ st.cur
    st.subs ++ [mkSub chunk bc baseURL st.idx content]
  else st.subs

/-- The paragraph (or sentence) units `SubdivideChunk` iterates over. -/
def splitUnits (content : Str) : List Str :=
  let paragraphs := splitOnL (lit "\n\n") content
  if paragraphs.length ≤ 1 then addDots (splitOnL (lit ". ") content)
  else paragraphs

/-- `SubdivideChunk` splits a large chunk into smaller ones with overlap;
small chunks are returned unchanged after metadata enrichment. -/
def SubdivideChunk (chunk : DocChunk) (breadcrumbParts : List Str)
    (baseURL : Str) : List DocChunk :=
  if EstimateTokens chunk.content ≤ MaxChunkTokens then
    [EnrichMetadata chunk breadcrumbParts baseURL]
  else
    let subchunks :=
      subFinish chunk breadcrumbParts baseURL
        ((splitUnits chunk.content).foldl (subStep chunk breadcrumbParts baseURL) {})
    if subchunks = [] then
      if maxChars < chunk.content.length then
        (ForceSplitText chunk.content maxChars overlapChars).enum.map
          (fun ip => mkSub chunk breadcrumbParts baseURL ip.1 ip.2)
      else [EnrichMetadata chunk breadcrumbParts baseURL]
    else subchunks

/-! ## `ParseDocumentation` (`internal/indexing`, chunking)

The Go function reads the documentation file and parses its contents; the
model takes the file contents directly (the read-error path returns the
error unchanged and produces no chunks). -/

/-- The mutable state of the `ParseDocumentation` line scan. -/
structure PSt where
  finalChunks : List DocChunk := []
  cur : Option DocChunk := none
  bc : List Str := []
  baseURL : Str := []
  content : Str := []
  chunkID : Nat := 0
  deriving DecidableEq, Inhabited

/-- The `saveCurrentChunk` closure: subdivide the accumulated section and
append the result, re-identifying unsplit chunks as `chunk_<n>`. -/
def saveCurrentChunk (st : PSt) : PSt :=
  match st.cur with
  | none => st
  | some c =>
    if st.content ≠ [] then
      let subs := SubdivideChunk { c with content := st.content } st.bc st.baseURL
      let renamed := subs.foldl
        (fun (acc : List DocChunk × Nat) s =>
          if containsSub s.id (lit "_sub") then (acc.1 ++ [s], acc.2)
          else (acc.1 ++ [{ s with id := lit "chunk_" ++ natStr acc.2 }], acc.2 + 1))
        ([], st.chunkID)
      { st with
        finalChunks := st.finalChunks ++ renamed.1,
        chunkID := renamed.2 + (if 1 < subs.length then subs.length - 1 else 0) }
    else st

/-- Process one line of the documentation: `#` starts a page, `##` starts
a category, `###`+ and plain text accumulate as content. -/
def parseLine (st : PSt) (rawLine : Str) : PSt :=
  let line := trimSpace rawLine
  if startsWithL line (lit "##") ∧ ¬ startsWithL line (lit "###") then
    let st := saveCurrentChunk st
    let title := StripMarkdownLinks (trimSpace (dropHashes line))
    let bc := (if 1 < st.bc.length then st.bc.take 1 else st.bc) ++ [title]
    { st with
      cur := some
        { id := lit "chunk_" ++ natStr st.chunkID,
          page := bc.headD [],
          category := title,
          subcategory := title },
      bc := bc,
      content := [] }
  else if startsWithL line (lit "#") ∧ ¬ startsWithL line (lit "##") then
    let st := saveCurrentChunk st
    let raw := trimSpace (dropHashes line)
    let category := StripMarkdownLinks raw
    { st with
      cur := some
        { id := lit "chunk_" ++ natStr st.chunkID,
          page := category,
          category := category,
          subcategory := category },
      bc := [category],
      baseURL := ExtractURLFromMarkdown raw,
      content := [] }
  else if line ≠ [] ∧ st.cur.isSome then
    { st with content := st.content ++ (if st.content ≠ [] then '\n' :: line else line) }
  else st

/-- `ParseDocumentation` parses documentation text into chunks with
intelligent sizing and metadata. -/
def ParseDocumentation (doc : Str) : List DocChunk :=
  (saveCurrentChunk ((splitOnL (lit "\n") doc).foldl parseLine {})).finalChunks

/-- No `](` in the page, category, or URL field of a chunk. -/
def Clean3 (c : DocChunk) : Prop :=
  hasJoinPair c.page = false ∧ hasJoinPair c.category = false ∧
  hasJoinPair c.url = false

/-- Cleanliness invariant of the `ParseDocumentation` line scan: the
finished chunks, the open chunk, the breadcrumb titles and the base URL
are all free of `](`. -/
def PClean (st : PSt) : Prop :=
  (∀ c ∈ st.finalChunks, Clean3 c) ∧
  (∀ c, st.cur = some c → Clean3 c) ∧
  (∀ t ∈ st.bc, hasJoinPair t = false) ∧
  hasJoinPair st.baseURL = false

/-! ## `SearchDocumentation` result limit (`tools/docsearch.go`) -/

/-- The effective result limit of `SearchDocumentation`:
`maxResults := input.MaxResults; if maxResults == 0 || maxResults > 20 { maxResults = 10 }`. -/
def effectiveMaxResults (m : Int) : Int :=
  if m = 0 ∨ 20 < m then 10 else m

/-! ## Cross-process lock (`tools/docsearch.go`, `cleanStaleLock` /
`acquireLock`)

The filesystem and process table are modelled explicitly: the lock file
is an optional byte string, and `isProcessRunning` is an oracle.  File
reads and writes themselves are modelled as succeeding; the remaining
control flow follows the source. -/

/-- `lockTimeout` in milliseconds. -/
def lockTimeoutMs : Nat := 5000

/-- `lockRetryWait` in milliseconds. -/
def lockRetryWaitMs : Nat := 500

/-- The state seen by the lock protocol. -/
structure LockSt where
  lockContent : Option Str
  running : Nat → Bool
  ourPID : Nat

/-- Errors surfaced by the lock protocol. -/
inductive LockErr where
  | lockHeld (pid : Nat)
  | timeoutErr (pid : Nat)
  deriving DecidableEq

/-- `cleanStaleLock` removes the lock file if the owning process is dead;
it fails with `lockHeld` if the owner is alive, and removes a corrupted
(unparseable) lock file. -/
def cleanStaleLock (st : LockSt) : Except LockErr Unit × LockSt :=
  match st.lockContent with
  | none => (.ok (), st)
  | some data =>
    match parsePid (trimSpace data) with
    | none => (.ok (), { st with lockContent := none })
    | some pid =>
      if st.running pid then (.error (.lockHeld pid), st)
      else (.ok (), { st with lockContent := none })

/-- The retry loop of `acquireLock`.  `elapsed` is the time since the loop
started in milliseconds, the returned `Nat` counts calls to `time.Sleep`.
The fuel dominates the iteration count
(`lockTimeoutMs / lockRetryWaitMs + 1 = 11` iterations suffice). -/
def acquireLoop : Nat → Nat → LockSt → Nat → Except LockErr Unit × LockSt × Nat
  | 0, _, st, sleeps => (.error (.timeoutErr 0), st, sleeps)
  | fuel + 1, elapsed, st, sleeps =>
    match cleanStaleLock st with
    | (.error (.lockHeld pid), st') =>
      if lockTimeoutMs ≤ elapsed then (.error (.timeoutErr pid), st', sleeps)
      else acquireLoop fuel (elapsed + lockRetryWaitMs) st' (sleeps + 1)
    | (_, st') =>
      (.ok (), { st' with lockContent := some (natStr st'.ourPID) }, sleeps)

/-- `acquireLock` attempts to acquire the index lock with retry: a fast
path succeeds when the lock file already names our own PID; otherwise
stale locks are cleaned and the lock is written, retrying with backoff
while a live owner holds it. -/
def acquireLock (st : LockSt) : Except LockErr Unit × LockSt × Nat :=
  let ownLock :=
    match st.lockContent with
    | some data =>
      match parsePid (trimSpace data) with
      | some pid => pid == st.ourPID
      | none => false
    | none => false
  if ownLock then (.ok (), st, 0)
  else acquireLoop 11 0 st 0

/-! ## `indexChunks` (`tools/docsearch.go`)

The filesystem and the index holder are modelled as the contents of the
published index directory, of the temporary directory, and of the
holder's current pointer.  Fallible index-library operations are driven
by an error oracle. -/

/-- Which operations of a run of `indexChunks` fail. -/
structure IdxEnv where
  insertFails : Nat → Bool
  batchFails : Nat → Bool
  finalBatchFails : Bool
  closeFails : Bool
  renameFails : Bool
  openFails : Bool

/-- Errors of `indexChunks`, tagged by their origin. -/
inductive IdxErr where
  | insertErr (i : Nat)
  | batchErr (i : Nat)
  | finalBatchErr
  | closeErr
  | renameErr
  | openErr
  deriving DecidableEq

/-- The on-disk and in-process state touched by `indexChunks`. -/
structure IdxSt where
  published : Option (List DocChunk)
  temp : Option (List DocChunk)
  holderCurrent : Option (List DocChunk)
  versionFile : Option Nat
  deriving DecidableEq

/-- The batching loop of `indexChunks`: `batch.Index` each chunk, and
submit every 100 documents.  Returns the submitted contents and the
still-open batch, or the first error. -/
def idxLoop (env : IdxEnv) :
    List DocChunk → Nat → List DocChunk → List DocChunk →
    Except IdxErr (List DocChunk × List DocChunk)
  | [], _, batch, content => .ok (content, batch)
  | c :: rest, i, batch, content =>
    if env.insertFails i then .error (.insertErr i)
    else
      let batch := batch ++ [c]
      if i % 100 = 0 ∧ 0 < i then
        if env.batchFails i then .error (.batchErr i)
        else idxLoop env rest (i + 1) [] (content ++ batch)
      else idxLoop env rest (i + 1) batch content

/-- `indexChunks` builds a fresh index in a temporary directory, swaps it
into place, reopens it and publishes it to the holder; on failure the
temporary directory is discarded. -/
def indexChunks (env : IdxEnv) (chunks : List DocChunk) (st : IdxSt) :
    Except IdxErr Unit × IdxSt :=
  -- os.RemoveAll(tempIndexPath); bleve.New(tempIndexPath, mapping)
  let st0 : IdxSt := { st with temp := some [] }
  match idxLoop env chunks 0 [] [] with
  | .error e => (.error e, { st0 with temp := none })
  | .ok (content, batch) =>
    if batch ≠ [] ∧ env.finalBatchFails then
      (.error .finalBatchErr, { st0 with temp := none })
    else
      let full := content ++ batch
      if env.closeFails then (.error .closeErr, { st0 with temp := none })
      else
        -- os.RemoveAll(indexPath); os.Rename(tempIndexPath, indexPath)
        if env.renameFails then
          (.error .renameErr, { st0 with published := none, temp := none })
        else
          let st1 : IdxSt := { st0 with published := some full, temp := none }
          if env.openFails then (.error .openErr, st1)
          else
            (.ok (),
             { st1 with
               holderCurrent := some full,
               versionFile := some IndexSchemaVersion })

/-! ## Refresh freshness (`tools/docsearch.go`, `needsRefresh` /
`refreshDocumentationIndex` / `RefreshDocumentationIndex`)

Time is an abstract natural-number clock; the cache-metadata file is
modelled by its modification time.  The download, parse and index steps
of a rebuild are counted as units of rebuild work. -/

/-- `cacheTTL`: 7 days, in the model's abstract clock units. -/
def cacheTTL : Nat := 7 * 24

/-- State of the refresh pipeline. -/
structure RefreshSt where
  metaMod : Option Nat
  docsContent : Str
  remoteDoc : Str
  downloadOK : Bool
  index : Option (List DocChunk)
  deriving Inhabited

/-- Refresh errors. -/
inductive RefreshErr where
  | downloadFailed
  deriving DecidableEq

/-- The `refresh` tool output (the human-readable message is omitted). -/
structure RefreshOutput where
  updated : Bool
  lastUpdate : Option Nat
  chunksIndexed : Nat
  deriving DecidableEq

/-- `needsRefresh`: the cache metadata file is missing or older than
`cacheTTL`. -/
def needsRefresh (st : RefreshSt) (now : Nat) : Bool :=
  match st.metaMod with
  | none => true
  | some m => cacheTTL < now - m

/-- `refreshDocumentationIndex` (the inner worker): no-op while the cache
is fresh (checked twice, mirroring the double-checked locking pattern);
otherwise download, parse with `ParseDocumentation`, and rebuild the
index.  The third component counts units of rebuild work performed. -/
def refreshDocumentationIndex (force : Bool) (st : RefreshSt) (now : Nat) :
    Except RefreshErr Unit × RefreshSt × Nat :=
  if !force && !needsRefresh st now then (.ok (), st, 0)
  else if !force && !needsRefresh st now then (.ok (), st, 0)
  else
    if ¬ st.downloadOK then (.error .downloadFailed, st, 1)
    else
      let st1 := { st with docsContent := st.remoteDoc, metaMod := some now }
      let chunks := ParseDocumentation st1.docsContent
      (.ok (), { st1 with index := some chunks }, 3)

/-- `RefreshDocumentationIndex` (the tool entry point): return
`updated:false` with the cache timestamp while fresh and unforced;
otherwise run the worker and report the result. -/
def RefreshDocumentationIndex (force : Bool) (st : RefreshSt) (now : Nat) :
    (Except RefreshErr RefreshOutput) × RefreshSt × Nat :=
  match st.metaMod, !force && !needsRefresh st now with
  | some m, true =>
    (.ok { updated := false, lastUpdate := some m, chunksIndexed := 0 }, st, 0)
  | _, _ =>
    match refreshDocumentationIndex force st now with
    | (.error e, st', w) => (.error e, st', w)
    | (.ok _, st', w) =>
      (.ok
        { updated := true,
          lastUpdate := some now,
          chunksIndexed := (st'.index.getD []).length },
       st', w)

/-! ## Index holder drain-and-close (`tools/docsearch.go`, `indexHolder`,
`SearchDocumentation`, the cleanup goroutine of `indexChunks`)

An interleaving semantics of the concurrency core.  Generations are
numbered; `current` is the holder's atomic pointer, `counter` the
`sync.WaitGroup` counter.  A search registers (`wg.Add`), captures the
current generation (`current.Load`), and deregisters (`wg.Done`).  A
rebuild publish (`current.Swap`) hands the replaced generation to a
background closer, which may pass `wg.Wait` only at an instant where the
counter is zero, and only then invoke `Close`. -/

/-- The phase of one search operation. -/
inductive SPhase where
  | registered
  | running (gen : Nat)
  | finished
  deriving DecidableEq

/-- `true` while the search contributes to the `WaitGroup` counter. -/
def SPhase.isActive : SPhase → Bool
  | .registered => true
  | .running _ => true
  | .finished => false

/-- A background closer: the generation it must close, and whether its
`wg.Wait()` call has already returned. -/
structure Closer where
  gen : Nat
  waitDone : Bool
  deriving DecidableEq

/-- The interleaving state of the index holder. -/
structure HState where
  searchers : List SPhase
  counter : Nat
  current : Nat
  closers : List Closer
  closed : List Nat
  deriving DecidableEq

/-- The initial holder state: one published generation, no searches. -/
def hInit : HState :=
  { searchers := [], counter := 0, current := 0, closers := [], closed := [] }

/-- The interleaving steps of searches, publishes and closers. -/
inductive HStep : HState → HState → Prop where
  | add (s : HState) :
      HStep s { s with searchers := s.searchers ++ [.registered],
                       counter := s.counter + 1 }
  | load (s : HState) (i : Nat)
      (h : s.searchers.get? i = some .registered) :
      HStep s { s with searchers := s.searchers.set i (.running s.current) }
  | finish (s : HState) (i : Nat) (g : Nat)
      (h : s.searchers.get? i = some (.running g)) :
      HStep s { s with searchers := s.searchers.set i .finished,
                       counter := s.counter - 1 }
  | publish (s : HState) :
      HStep s { s with current := s.current + 1,
                       closers := s.closers ++ [⟨s.current, false⟩] }
  | waitRet (s : HState) (i : Nat) (g : Nat)
      (h : s.closers.get? i = some ⟨g, false⟩) (hc : s.counter = 0) :
      HStep s { s with closers := s.closers.set i ⟨g, true⟩ }
  | closeOld (s : HState) (i : Nat) (g : Nat)
      (h : s.closers.get? i = some ⟨g, true⟩) :
      HStep s { s with closers := s.closers.eraseIdx i,
                       closed := g :: s.closed }

/-- Reachability from the initial holder state. -/
inductive HReach : HState → Prop where
  | init : HReach hInit
  | step {s s' : HState} : HReach s → HStep s s' → HReach s'

/-! # Theorems -/

/-! ## Concrete chunking inputs

Two concrete oversized sections used to evaluate the chunking pipeline:
a single run of 3204 letters (801 estimated tokens, no separators, no
headings) and a two-sentence section of 4002 characters (1000 estimated
tokens, no blank-line paragraph breaks). -/

/-- A parent chunk whose content is 3204 repeated letters. -/
def exParent : DocChunk :=
  { id := lit "p", page := lit "Pg", category := lit "Cat",
    subcategory := lit "Parent", content := List.replicate 3204 'a' }

/-- First sentence unit of `exSec` (2000 letters plus the restored dot). -/
def exU1 : Str := List.replicate 2000 'a' ++ ['.']

/-- Second sentence unit of `exSec` (2000 letters). -/
def exU2 : Str := List.replicate 2000 'b'

/-- A section made of two long sentences separated by `". "`. -/
def exSec : DocChunk :=
  { id := lit "s", page := lit "Pg", category := lit "Cat",
    subcategory := lit "Parent",
    content := (List.replicate 2000 'a' ++ lit ". ") ++ List.replicate 2000 'b' }

/-! ## C3: drain-and-close of the replaced generation -/

/-- Setting a list element to one with the same predicate value keeps the
`countP` count. -/
theorem countP_set_same {α : Type} (p : α → Bool) (l : List α) (i : Nat)
    (a b : α) (h : l.get? i = some a) (hp : p a = p b) :
    (l.set i b).countP p = l.countP p := by
  induction l generalizing i with
  | nil => cases h
  | cons x t ih =>
    cases i with
    | zero =>
      cases h
      simp [List.countP_cons, hp]
    | succ j =>
      simp only [List.get?] at h
      simp [List.countP_cons, ih j h]

/-- Setting an element satisfying `p` to one failing `p` lowers the
`countP` count by exactly one. -/
theorem countP_set_deactivate {α : Type} (p : α → Bool) (l : List α) (i : Nat)
    (a b : α) (h : l.get? i = some a) (ha : p a = true) (hb : p b = false) :
    l.countP p = (l.set i b).countP p + 1 := by
  induction l generalizing i with
  | nil => cases h
  | cons x t ih =>
    cases i with
    | zero =>
      cases h
      simp [List.countP_cons, ha, hb]
    | succ j =>
      simp only [List.get?] at h
      simp only [List.set, List.countP_cons]
      have := ih j h
      omega

/-- The inductive invariant of the holder model: the `WaitGroup` counter
counts active searches; every pending closer (and every closed
generation) targets a generation older than the current one; once a
closer's `wg.Wait` has returned — and once a generation is closed — no
search is running against its generation. -/
def HInv (s : HState) : Prop :=
  s.counter = s.searchers.countP SPhase.isActive ∧
  (∀ c ∈ s.closers, c.gen < s.current) ∧
  (∀ c ∈ s.closers, c.waitDone = true →
    ∀ g', SPhase.running g' ∈ s.searchers → g' ≠ c.gen) ∧
  (∀ g ∈ s.closed, g < s.current ∧
    ∀ g', SPhase.running g' ∈ s.searchers → g' ≠ g)

theorem hInv_init : HInv hInit := by
  refine ⟨rfl, ?_, ?_, ?_⟩ <;> simp [hInit]

theorem hInv_step {s s' : HState} (hi : HInv s) (hs : HStep s s') : HInv s' := by
  obtain ⟨hc, hlt, hwait, hclosed⟩ := hi
  cases hs with
  | add =>
    refine ⟨?_, hlt, ?_, ?_⟩
    · simp [List.countP_append, List.countP_cons, SPhase.isActive, hc]
    · intro c hcm hw g' hg'
      rcases List.mem_append.mp hg' with h | h
      · exact hwait c hcm hw g' h
      · simp at h
    · intro g hgm
      refine ⟨(hclosed g hgm).1, ?_⟩
      intro g' hg'
      rcases List.mem_append.mp hg' with h | h
      · exact (hclosed g hgm).2 g' h
      · simp at h
  | load i h =>
    refine ⟨?_, hlt, ?_, ?_⟩
    · show s.counter = List.countP SPhase.isActive (s.searchers.set i (SPhase.running s.current))
      rw [hc]
      exact (countP_set_same SPhase.isActive s.searchers i SPhase.registered
        (SPhase.running s.current) h rfl).symm
    · intro c hcm hw g' hg'
      rcases List.mem_or_eq_of_mem_set hg' with hmem | heq
      · exact hwait c hcm hw g' hmem
      · cases heq
        exact fun hbad => absurd (hbad ▸ hlt c hcm) (lt_irrefl _)
    · intro g hgm
      refine ⟨(hclosed g hgm).1, ?_⟩
      intro g' hg'
      rcases List.mem_or_eq_of_mem_set hg' with hmem | heq
      · exact (hclosed g hgm).2 g' hmem
      · cases heq
        exact fun hbad => absurd (hbad ▸ (hclosed g hgm).1) (lt_irrefl _)
  | finish i g h =>
    refine ⟨?_, hlt, ?_, ?_⟩
    · show s.counter - 1 = List.countP SPhase.isActive (s.searchers.set i SPhase.finished)
      have := countP_set_deactivate SPhase.isActive s.searchers i _ SPhase.finished h
        rfl rfl
      omega
    · intro c hcm hw g' hg'
      rcases List.mem_or_eq_of_mem_set hg' with hmem | heq
      · exact hwait c hcm hw g' hmem
      · cases heq
    · intro g0 hgm
      refine ⟨(hclosed g0 hgm).1, ?_⟩
      intro g' hg'
      rcases List.mem_or_eq_of_mem_set hg' with hmem | heq
      · exact (hclosed g0 hgm).2 g' hmem
      · cases heq
  | publish =>
    refine ⟨hc, ?_, ?_, ?_⟩
    · intro c hcm
      rcases List.mem_append.mp hcm with h | h
      · exact Nat.lt_succ_of_lt (hlt c h)
      · simp at h
        rw [h]
        exact Nat.lt_succ_self _
    · intro c hcm hw g' hg'
      rcases List.mem_append.mp hcm with h | h
      · exact hwait c h hw g' hg'
      · simp at h
        rw [h] at hw
        cases hw
    · intro g hgm
      exact ⟨Nat.lt_succ_of_lt (hclosed g hgm).1, (hclosed g hgm).2⟩
  | waitRet i g h hzero =>
    have hnone : ∀ g', SPhase.running g' ∈ s.searchers → False := by
      intro g' hg'
      have h0 : s.searchers.countP SPhase.isActive = 0 := by omega
      have := (List.countP_eq_zero.mp h0) _ hg'
      simp [SPhase.isActive] at this
    refine ⟨hc, ?_, ?_, ?_⟩
    · intro c hcm
      rcases List.mem_or_eq_of_mem_set hcm with hmem | heq
      · exact hlt c hmem
      · cases heq
        exact hlt ⟨g, false⟩ (List.get?_mem h)
    · intro c hcm hw g' hg'
      exact absurd hg' (fun hx => hnone g' hx)
    · intro g0 hgm
      exact ⟨(hclosed g0 hgm).1, (hclosed g0 hgm).2⟩
  | closeOld i g h =>
    refine ⟨hc, ?_, ?_, ?_⟩
    · intro c hcm
      exact hlt c (List.mem_of_mem_eraseIdx hcm)
    · intro c hcm hw g' hg'
      exact hwait c (List.mem_of_mem_eraseIdx hcm) hw g' hg'
    · intro g0 hgm
      rcases List.mem_cons.mp hgm with heq | hmem
      · cases heq
        have hcm := List.get?_mem h
        exact ⟨hlt _ hcm, hwait _ hcm rfl⟩
      · exact hclosed g0 hmem

/-- Every reachable holder state satisfies the invariant. -/
theorem hReach_inv {s : HState} (hr : HReach s) : HInv s := by
  induction hr with
  | init => exact hInv_init
  | step _ hs ih => exact hInv_step ih hs

/-- C3: after a rebuild publishes a new generation, the replaced old
generation is closed only after the in-flight completion counter reached
zero: in every reachable state in which the background closer for
generation `g` may invoke `Close` (its `wg.Wait` returned, which the
`waitRet` step permits only at a counter-zero instant) — and in every
state in which `g` is already closed — no search that captured `g` is
still executing. -/
theorem old_generation_drained_before_close (s : HState) (hr : HReach s)
    (g : Nat)
    (hg : (⟨g, true⟩ : Closer) ∈ s.closers ∨ g ∈ s.closed) :
    ∀ g', SPhase.running g' ∈ s.searchers → g' ≠ g := by
  obtain ⟨_, _, hwait, hclosed⟩ := hReach_inv hr
  rcases hg with h | h
  · exact hwait _ h rfl
  · exact (hclosed g h).2

/-- C3 witness: the concrete reachable state after one publish and the
drain of its closer; closing generation 0 there meets no running search. -/
theorem old_generation_drained_witness :
    ((⟨0, true⟩ : Closer) ∈
        (⟨[], 0, 1, [⟨0, true⟩], []⟩ : HState).closers ∨
      (0 : Nat) ∈ (⟨[], 0, 1, [⟨0, true⟩], []⟩ : HState).closed) ∧
    (∀ g', SPhase.running g' ∈ (⟨[], 0, 1, [⟨0, true⟩], []⟩ : HState).searchers →
      g' ≠ 0) := by
  have hr : HReach (⟨[], 0, 1, [⟨0, true⟩], []⟩ : HState) :=
    HReach.step (HReach.step HReach.init (HStep.publish hInit))
      (HStep.waitRet ⟨[], 0, 1, [⟨0, false⟩], []⟩ 0 0 rfl rfl)
  exact ⟨Or.inl (by simp),
    old_generation_drained_before_close _ hr 0 (Or.inl (by simp))⟩

/-! ## C10: `ForceSplitText` termination and bounds -/

theorem maxChars_eq : maxChars = 3200 := rfl

theorem overlapChars_eq : overlapChars = 400 := rfl

/-- The look-back scan lowers the cut position by at most 99 characters,
never below 1 (or leaves it unchanged). -/
theorem lookBack_bounds (text : Str) (cs0 : Nat) :
    ∀ i, i ≤ cs0 →
      lookBack text cs0 i = cs0 ∨
      (1 ≤ lookBack text cs0 i ∧ cs0 ≤ lookBack text cs0 i + 99 ∧
        lookBack text cs0 i ≤ cs0) := by
  intro i
  induction i with
  | zero => intro _; exact Or.inl rfl
  | succ j ih =>
    intro h
    unfold lookBack
    by_cases hw : cs0 < j + 1 + 100
    · rw [if_pos hw]
      by_cases hcut : isCutChar (charAt text (j + 1))
      · rw [if_pos hcut]
        exact Or.inr ⟨by omega, by omega, h⟩
      · rw [if_neg hcut]
        exact ih (by omega)
    · rw [if_neg hw]
      exact Or.inl rfl

/-- One `ForceSplitText` iteration with the engine's constants: the part
is non-empty and at most `maxChars` long, and the rest is either empty or
at least `maxChars - 100 - overlapChars = 2700` characters shorter (in
particular strictly shorter) than the input. -/
theorem forceStep_spec (text : Str) (h : text ≠ []) :
    (forceStep text maxChars overlapChars).1 ≠ [] ∧
    (forceStep text maxChars overlapChars).1.length ≤ maxChars ∧
    ((forceStep text maxChars overlapChars).2.length = 0 ∨
      (forceStep text maxChars overlapChars).2.length + 2700 ≤ text.length) ∧
    (forceStep text maxChars overlapChars).2.length < text.length := by
  have hn : 1 ≤ text.length := List.length_pos.mpr h
  rw [maxChars_eq, overlapChars_eq]
  by_cases hbig : text.length ≤ 3200
  · have hstep : forceStep text 3200 400 = (text, []) := by
      simp only [forceStep]
      rw [Nat.min_eq_right hbig, if_neg (lt_irrefl text.length),
        if_neg (by omega : ¬ (text.length + 400 < text.length)),
        List.take_length, List.drop_length]
    rw [hstep]
    exact ⟨h, hbig, Or.inl rfl, by simpa using hn⟩
  · have hcs0 : min 3200 text.length = 3200 := Nat.min_eq_left (by omega)
    have hlb := lookBack_bounds text 3200 3200 (le_refl _)
    set cs := lookBack text 3200 3200 with hcsdef
    have hcsb : 3101 ≤ cs ∧ cs ≤ 3200 := by
      rcases hlb with h1 | ⟨h1, h2, h3⟩ <;> omega
    have hstep : forceStep text 3200 400 =
        (text.take cs,
         if cs + 400 < text.length then text.drop (cs - 400) else text.drop cs) := by
      simp only [forceStep]
      rw [hcs0, if_pos (by omega : 3200 < text.length)]
    rw [hstep]
    have htake : (text.take cs).length = cs := by
      simp [List.length_take]
      omega
    by_cases hadv : cs + 400 < text.length
    · rw [if_pos hadv]
      refine ⟨?_, ?_, Or.inr ?_, ?_⟩
      · intro hnil
        have h0 : List.take cs text = [] := hnil
        rw [h0] at htake
        simp at htake
        omega
      · rw [htake]; omega
      · simp only [List.length_drop]; omega
      · simp only [List.length_drop]; omega
    · rw [if_neg hadv]
      refine ⟨?_, ?_, Or.inr ?_, ?_⟩
      · intro hnil
        have h0 : List.take cs text = [] := hnil
        rw [h0] at htake
        simp at htake
        omega
      · rw [htake]; omega
      · simp only [List.length_drop]; omega
      · simp only [List.length_drop]; omega

/-- Fuel `text.length + 1` suffices for the fuelled `ForceSplitText`
loop, and every emitted part is non-empty and at most `maxChars` long. -/
theorem fstF_sufficient :
    ∀ (fuel : Nat) (text : Str), text.length < fuel →
      ∃ parts, fstF fuel text maxChars overlapChars = some parts ∧
        ∀ p ∈ parts, p ≠ [] ∧ p.length ≤ maxChars := by
  intro fuel
  induction fuel with
  | zero => intro text h; omega
  | succ f ih =>
    intro text h
    match text with
    | [] => exact ⟨[], rfl, by simp⟩
    | c :: t =>
      have hne : (c :: t : Str) ≠ [] := by simp
      have spec := forceStep_spec (c :: t) hne
      have hrec : (forceStep (c :: t) maxChars overlapChars).2.length < f := by
        have h1 := spec.2.2.2
        omega
      obtain ⟨parts, hp, hb⟩ := ih _ hrec
      refine ⟨(forceStep (c :: t) maxChars overlapChars).1 :: parts, ?_, ?_⟩
      · show (fstF f (forceStep (c :: t) maxChars overlapChars).2 maxChars
            overlapChars).map ((forceStep (c :: t) maxChars overlapChars).1 :: ·) = _
        rw [hp]
        rfl
      · intro p hpm
        rcases List.mem_cons.mp hpm with h1 | h1
        · rw [h1]; exact ⟨spec.1, spec.2.1⟩
        · exact hb p h1

/-- C10: `ForceSplitText` terminates for every input string at the
engine's constants (`maxChars = 3200`, `overlapChars = 400`): the fuelled
loop completes within `text.length + 1` iterations worth of fuel, every
emitted part is non-empty and at most `maxChars` characters long, and
each iteration either consumes the remaining text entirely or removes at
least `maxChars - 100 - overlapChars = 2700` characters from it (the
word-boundary look-back lowers the cut point by at most 100 characters). -/
theorem forcesplit_terminates (text : Str) :
    (∃ parts, fstF (text.length + 1) text maxChars overlapChars = some parts ∧
      ForceSplitText text maxChars overlapChars = parts ∧
      ∀ p ∈ parts, p ≠ [] ∧ p.length ≤ maxChars) ∧
    (text ≠ [] →
      ((forceStep text maxChars overlapChars).2.length = 0 ∨
        (forceStep text maxChars overlapChars).2.length +
          (maxChars - 100 - overlapChars) ≤ text.length)) := by
  constructor
  · obtain ⟨parts, hp, hb⟩ := fstF_sufficient (text.length + 1) text (Nat.lt_succ_self _)
    refine ⟨parts, hp, ?_, hb⟩
    unfold ForceSplitText
    rw [hp]
    rfl
  · intro h
    exact (forceStep_spec text h).2.2.1

/-- C10 witness: the termination facts at the concrete non-empty input
`"ab cd"`. -/
theorem forcesplit_terminates_witness :
    ((lit "ab cd" : Str) ≠ []) ∧
    ((forceStep (lit "ab cd") maxChars overlapChars).2.length = 0 ∨
      (forceStep (lit "ab cd") maxChars overlapChars).2.length +
        (maxChars - 100 - overlapChars) ≤ (lit "ab cd").length) :=
  ⟨by decide, (forcesplit_terminates (lit "ab cd")).2 (by decide)⟩

/-! ## C2 (amended): `ForceSplitText` reconstruction -/

/-- Drop each later part's duplicated overlap prefix (`overlapChars`
characters for every part except the last, whose actual duplicated prefix
has `d` characters) and concatenate. -/
def reconTail (d : Nat) : List Str → Str
  | [] => []
  | [p] => p.drop d
  | p :: q :: rest => p.drop overlapChars ++ reconTail d (q :: rest)

/-- Concatenate a part list after removing the duplicated overlap
prefixes: the first part is kept whole. -/
def reconParts (parts : List Str) (d : Nat) : Str :=
  match parts with
  | [] => []
  | p :: rest => p ++ reconTail d rest

/-- The cut position of one `ForceSplitText` iteration: the emitted part
is `text.take cs`, `cs` is positive, bounded by the text and (for long
texts) lies in the look-back window `[3101, 3200]`; the remainder is
`text.drop (cs - overlapChars)` exactly when the overlap advance fires,
else `text.drop cs`. -/
theorem forceStep_cases (text : Str) (h : text ≠ []) :
    ∃ cs, (forceStep text maxChars overlapChars).1 = text.take cs ∧
      1 ≤ cs ∧ cs ≤ text.length ∧
      ((text.length ≤ maxChars ∧ cs = text.length) ∨
       (maxChars < text.length ∧ 3101 ≤ cs ∧ cs ≤ 3200)) ∧
      (if cs + overlapChars < text.length
        then (forceStep text maxChars overlapChars).2 = text.drop (cs - overlapChars)
        else (forceStep text maxChars overlapChars).2 = text.drop cs) := by
  have hn : 1 ≤ text.length := List.length_pos.mpr h
  rw [maxChars_eq, overlapChars_eq]
  by_cases hbig : text.length ≤ 3200
  · refine ⟨text.length, ?_, hn, le_refl _, Or.inl ⟨hbig, rfl⟩, ?_⟩
    · simp only [forceStep]
      rw [Nat.min_eq_right hbig, if_neg (lt_irrefl text.length), List.take_length]
    · rw [if_neg (by omega : ¬ (text.length + 400 < text.length))]
      simp only [forceStep]
      rw [Nat.min_eq_right hbig, if_neg (lt_irrefl text.length),
        if_neg (by omega : ¬ (text.length + 400 < text.length)), List.drop_length]
  · have hcs0 : min 3200 text.length = 3200 := Nat.min_eq_left (by omega)
    have hlb := lookBack_bounds text 3200 3200 (le_refl _)
    set cs := lookBack text 3200 3200 with hcsdef
    have hcsb : 3101 ≤ cs ∧ cs ≤ 3200 := by
      rcases hlb with h1 | ⟨h1, h2, h3⟩ <;> omega
    have hstep : forceStep text 3200 400 =
        (text.take cs,
         if cs + 400 < text.length then text.drop (cs - 400) else text.drop cs) := by
      simp only [forceStep]
      rw [hcs0, if_pos (by omega : 3200 < text.length)]
    refine ⟨cs, by rw [hstep], by omega, by omega,
      Or.inr ⟨by omega, hcsb.1, hcsb.2⟩, ?_⟩
    by_cases hadv : cs + 400 < text.length
    · rw [if_pos hadv, hstep, if_pos hadv]
    · rw [if_neg hadv, hstep, if_neg hadv]

/-- The one-step unfolding of the fuelled loop on a non-empty text. -/
theorem fstF_cons (f : Nat) (text : Str) (h : text ≠ []) :
    fstF (f + 1) text maxChars overlapChars =
      (fstF f (forceStep text maxChars overlapChars).2 maxChars overlapChars).map
        ((forceStep text maxChars overlapChars).1 :: ·) := by
  cases text with
  | nil => exact absurd rfl h
  | cons c t => rfl

/-- The fuelled loop on the empty text. -/
theorem fstF_nil (f : Nat) : fstF f ([] : Str) maxChars overlapChars = some [] := by
  cases f <;> rfl

/-- Reconstruction invariant of the fuelled `ForceSplitText` loop: for a
suitable last-part drop `d ∈ {0, overlapChars}`, dropping `overlapChars`
characters from every part but the first and last, `d` from the last, and
concatenating reproduces the input exactly. -/
theorem fstF_reconstruction :
    ∀ (fuel : Nat) (text : Str), text.length < fuel →
      ∃ d parts, (d = 0 ∨ d = overlapChars) ∧
        fstF fuel text maxChars overlapChars = some parts ∧
        reconParts parts d = text := by
  intro fuel
  induction fuel with
  | zero => intro text h; omega
  | succ f ih =>
    intro text hlen
    by_cases hnil : text = []
    · subst hnil
      exact ⟨0, [], Or.inl rfl, fstF_nil _, rfl⟩
    obtain ⟨cs, hpart, hcs1, hcsle, hrange, hrest⟩ := forceStep_cases text hnil
    have hunf := fstF_cons f text hnil
    by_cases hadv : cs + overlapChars < text.length
    · -- overlap advance
      rw [if_pos hadv] at hrest
      have hbigcs : 3101 ≤ cs ∧ cs ≤ 3200 := by
        rcases hrange with ⟨h1, h2⟩ | ⟨h1, h2, h3⟩
        · rw [overlapChars_eq] at hadv; omega
        · exact ⟨h2, h3⟩
      have hrlen : (forceStep text maxChars overlapChars).2.length =
          text.length - (cs - overlapChars) := by
        rw [hrest, List.length_drop]
      have hrlt : (forceStep text maxChars overlapChars).2.length < f := by
        rw [hrlen, overlapChars_eq]
        omega
      have hrne : (forceStep text maxChars overlapChars).2 ≠ [] := by
        intro h0
        rw [h0] at hrlen
        simp at hrlen
        rw [overlapChars_eq] at hadv hrlen
        omega
      obtain ⟨d, parts', hd, hfst', hrec⟩ := ih _ hrlt
      obtain ⟨f', rfl⟩ : ∃ f', f = f' + 1 := ⟨f - 1, by omega⟩
      rw [fstF_cons f' _ hrne] at hfst'
      obtain ⟨qs, hqs, hcons⟩ := Option.map_eq_some'.mp hfst'
      rw [← hcons] at hrec
      have hdrop2 : ((forceStep text maxChars overlapChars).2).drop overlapChars =
          text.drop cs := by
        rw [hrest, List.drop_drop]
        congr 1
        rw [overlapChars_eq]
        omega
      obtain ⟨cs2, hpart2, hcs21, hcs2le, hrange2, hrest2⟩ :=
        forceStep_cases (forceStep text maxChars overlapChars).2 hrne
      rcases hq : qs with _ | ⟨q2, qs'⟩
      · -- a single part follows the overlap advance: its whole prefix is overlap
        rw [hq] at hcons hrec hqs
        refine ⟨overlapChars,
          [(forceStep text maxChars overlapChars).1,
           (forceStep (forceStep text maxChars overlapChars).2 maxChars overlapChars).1],
          Or.inr rfl, ?_, ?_⟩
        · rw [hunf, fstF_cons f' _ hrne, hqs]
          rfl
        · simp only [reconParts, reconTail, List.append_nil] at hrec ⊢
          rw [hpart, hrec, hdrop2]
          exact List.take_append_drop _ _
      · -- at least two parts follow the overlap advance
        rw [hq] at hcons hrec hqs
        refine ⟨d,
          (forceStep text maxChars overlapChars).1 ::
            (forceStep (forceStep text maxChars overlapChars).2 maxChars overlapChars).1 ::
            q2 :: qs', hd, ?_, ?_⟩
        · rw [hunf, fstF_cons f' _ hrne, hqs]
          rfl
        · -- the head part after the advance is at least overlapChars long
          have hq2big : 3101 ≤ cs2 := by
            rcases hrange2 with ⟨h1, h2⟩ | ⟨h1, h2, h3⟩
            · exfalso
              rw [if_neg (by omega : ¬ (cs2 + overlapChars <
                (forceStep text maxChars overlapChars).2.length))] at hrest2
              rw [h2, List.drop_length] at hrest2
              rw [hrest2, fstF_nil] at hqs
              cases hqs
            · exact h2
          have hlen2 : ((forceStep (forceStep text maxChars overlapChars).2 maxChars
              overlapChars).1).length = cs2 := by
            rw [hpart2, List.length_take]
            omega
          simp only [reconParts, reconTail] at hrec ⊢
          have hsplit :
              ((forceStep (forceStep text maxChars overlapChars).2 maxChars
                overlapChars).1).drop overlapChars ++ reconTail d (q2 :: qs') =
              (((forceStep (forceStep text maxChars overlapChars).2 maxChars
                overlapChars).1) ++ reconTail d (q2 :: qs')).drop overlapChars :=
            (List.drop_append_of_le_length (by rw [hlen2, overlapChars_eq]; omega)).symm
          rw [hpart, hsplit, hrec, hdrop2]
          exact List.take_append_drop _ _
    · -- plain advance: the loop ends after at most one more part
      rw [if_neg hadv] at hrest
      by_cases hr0 : (forceStep text maxChars overlapChars).2 = []
      · have hcse : cs = text.length := by
          have hh := congrArg List.length hrest
          rw [hr0] at hh
          simp at hh
          omega
        refine ⟨0, [(forceStep text maxChars overlapChars).1], Or.inl rfl, ?_, ?_⟩
        · rw [hunf, hr0, fstF_nil]
          rfl
        · simp only [reconParts, reconTail, List.append_nil]
          rw [hpart, hcse, List.take_length]
      · -- one final short part
        have hrlen : (forceStep text maxChars overlapChars).2.length =
            text.length - cs := by rw [hrest, List.length_drop]
        obtain ⟨cs2, hpart2, hcs21, hcs2le, hrange2, hrest2⟩ :=
          forceStep_cases (forceStep text maxChars overlapChars).2 hr0
        have hcs2e : cs2 = (forceStep text maxChars overlapChars).2.length := by
          rcases hrange2 with ⟨h1, h2⟩ | ⟨h1, h2, h3⟩
          · exact h2
          · exfalso
            rw [maxChars_eq] at h1
            rw [overlapChars_eq] at hadv
            omega
        have hrest2e : (forceStep (forceStep text maxChars overlapChars).2 maxChars
            overlapChars).2 = [] := by
          rw [if_neg (by omega : ¬ (cs2 + overlapChars <
            (forceStep text maxChars overlapChars).2.length))] at hrest2
          rw [hrest2, hcs2e, List.drop_length]
        obtain ⟨f', rfl⟩ : ∃ f', f = f' + 1 := by
          have h1 : 1 ≤ (forceStep text maxChars overlapChars).2.length :=
            List.length_pos.mpr hr0
          have h2 : (forceStep text maxChars overlapChars).2.length < f := by
            rw [hrlen]; omega
          exact ⟨f - 1, by omega⟩
        refine ⟨0, [(forceStep text maxChars overlapChars).1,
          (forceStep text maxChars overlapChars).2], Or.inl rfl, ?_, ?_⟩
        · rw [hunf, fstF_cons f' _ hr0, hrest2e, fstF_nil]
          have hpe : (forceStep (forceStep text maxChars overlapChars).2 maxChars
              overlapChars).1 = (forceStep text maxChars overlapChars).2 := by
            rw [hpart2, hcs2e, List.take_length]
          rw [hpe]
          rfl
        · simp only [reconParts, reconTail, List.drop_zero]
          rw [hpart, hrest]
          exact List.take_append_drop _ _

/-- C2 (amended): for the force-split path, content is preserved exactly:
concatenating the `ForceSplitText` parts after removing each later part's
actual duplicated overlap prefix — `overlapChars` characters for every
part except possibly the last, which carries an overlap prefix only when
the final advance added one (`d ∈ {0, overlapChars}`) — reproduces the
input text exactly.  (The paragraph/sentence accumulation path of
`SubdivideChunk` rebuilds contents from trimmed units joined with blank
lines, so for it the original section text is reproduced only up to
whitespace normalization, not exactly; see the counterexample.) -/
theorem forcesplit_reconstruction (text : Str) :
    ∃ d, (d = 0 ∨ d = overlapChars) ∧
      reconParts (ForceSplitText text maxChars overlapChars) d = text := by
  obtain ⟨d, parts, hd, hf, hr⟩ :=
    fstF_reconstruction (text.length + 1) text (Nat.lt_succ_self _)
  refine ⟨d, hd, ?_⟩
  unfold ForceSplitText
  rw [hf]
  exact hr

/-! ## C1: token budget -/

/-- The larger of the estimated token counts of the (trimmed) units
`SubdivideChunk` iterates over: the section's unsplit paragraphs, or its
sentences when the section is a single paragraph. -/
def maxUnitTokens (content : Str) : Nat :=
  ((splitUnits content).map (fun u => EstimateTokens (trimSpace u))).foldr max 0

/-- Generic `foldl` invariant preservation. -/
theorem foldl_preserve {α β : Type} (Inv : α → Prop) (f : α → β → α)
    (l : List β) (h : ∀ a b, b ∈ l → Inv a → Inv (f a b)) :
    ∀ a, Inv a → Inv (l.foldl f a) := by
  induction l with
  | nil => intro a ha; exact ha
  | cons x t ih =>
    intro a ha
    exact ih (fun a b hb => h a b (List.mem_cons_of_mem _ hb))
      (f a x) (h a x (List.mem_cons_self _ _) ha)

/-- Every member is at most the `foldr max 0` of the list. -/
theorem le_foldr_max (l : List Nat) : ∀ a ∈ l, a ≤ l.foldr max 0 := by
  induction l with
  | nil => intro a ha; cases ha
  | cons x t ih =>
    intro a ha
    rcases List.mem_cons.mp ha with h | h
    · subst h; exact le_max_left _ _
    · exact le_trans (ih a h) (le_max_right _ _)

theorem max_div_four (a b : Nat) : max a b / 4 = max (a / 4) (b / 4) := by
  rcases le_total a b with h | h
  · rw [Nat.max_eq_right h, Nat.max_eq_right (Nat.div_le_div_right h)]
  · rw [Nat.max_eq_left h, Nat.max_eq_left (Nat.div_le_div_right h)]

theorem foldr_max_div (l : List Nat) :
    (l.map (· / 4)).foldr max 0 = l.foldr max 0 / 4 := by
  induction l with
  | nil => rfl
  | cons x t ih => simp only [List.map_cons, List.foldr_cons, ih, max_div_four]

/-- `maxUnitTokens` in terms of trimmed unit lengths. -/
theorem maxUnitTokens_eq (content : Str) :
    maxUnitTokens content =
      ((splitUnits content).map (fun u => (trimSpace u).length)).foldr max 0 / 4 := by
  unfold maxUnitTokens
  rw [← foldr_max_div, List.map_map]
  rfl

theorem length_nl2 : (lit "\n\n").length = 2 := rfl

theorem lastN_length_le (n : Nat) (s : Str) : (lastN n s).length ≤ n := by
  simp only [lastN, List.length_drop]
  omega

/-- `improveSubchunkTitle` only changes the subcategory. -/
theorem improve_fields (c : DocChunk) (oc : Str) (i : Nat) :
    (improveSubchunkTitle c oc i).id = c.id ∧
    (improveSubchunkTitle c oc i).page = c.page ∧
    (improveSubchunkTitle c oc i).category = c.category ∧
    (improveSubchunkTitle c oc i).content = c.content ∧
    (improveSubchunkTitle c oc i).url = c.url ∧
    (improveSubchunkTitle c oc i).tokenCount = c.tokenCount := by
  unfold improveSubchunkTitle
  refine ⟨?_, ?_, ?_, ?_, ?_, ?_⟩ <;> (dsimp only; split <;> (try split) <;> rfl)

/-- `EnrichMetadata` keeps the id, page, category, subcategory and
content, and sets the token count to the content's estimate. -/
theorem enrich_fields (c : DocChunk) (bc : List Str) (url : Str) :
    (EnrichMetadata c bc url).id = c.id ∧
    (EnrichMetadata c bc url).page = c.page ∧
    (EnrichMetadata c bc url).category = c.category ∧
    (EnrichMetadata c bc url).subcategory = c.subcategory ∧
    (EnrichMetadata c bc url).content = c.content ∧
    (EnrichMetadata c bc url).tokenCount = EstimateTokens c.content := by
  unfold EnrichMetadata
  refine ⟨?_, ?_, ?_, ?_, ?_, ?_⟩ <;> (dsimp only; split_ifs <;> rfl)

/-- The content and token count of an emitted sub-chunk. -/
theorem mkSub_content (chunk : DocChunk) (bc : List Str) (url : Str)
    (i : Nat) (content : Str) :
    (mkSub chunk bc url i content).content = content ∧
    (mkSub chunk bc url i content).tokenCount = EstimateTokens content := by
  unfold mkSub
  have h1 := improve_fields
    { id := chunk.id ++ lit "_sub" ++ natStr i, page := chunk.page,
      category := chunk.category, subcategory := chunk.subcategory,
      content := content } chunk.category i
  have h2 := enrich_fields (improveSubchunkTitle
    { id := chunk.id ++ lit "_sub" ++ natStr i, page := chunk.page,
      category := chunk.category, subcategory := chunk.subcategory,
      content := content } chunk.category i) bc url
  refine ⟨?_, ?_⟩
  · rw [h2.2.2.2.2.1, h1.2.2.2.1]
  · rw [h2.2.2.2.2.2, h1.2.2.2.1]

/-- Every part of a `ForceSplitText` run at the engine's constants is at
most `maxChars` characters long. -/
theorem fst_part_le (text : Str) :
    ∀ p ∈ ForceSplitText text maxChars overlapChars, p.length ≤ maxChars := by
  obtain ⟨parts, hp, heq, hb⟩ := (forcesplit_terminates text).1
  intro p hpm
  rw [heq] at hpm
  exact (hb p hpm).2

/-- The length-bound invariant of the `SubdivideChunk` loop, relative to
the longest trimmed unit length `P`: the accumulation buffer stays within
the target window (or one unit), the previous-content slot within one
unit or one force-split part, and every emitted sub-chunk's token count
within the emission bound. -/
def SubLenInv (P : Nat) (st : SubSt) : Prop :=
  st.cur.length ≤ max 2003 P ∧
  st.prev.length ≤ max P 3200 ∧
  ∀ c ∈ st.subs, c.tokenCount ≤ max (402 + max 2003 P) 3200 / 4

/-- The emission bound `402 + max 2003 P` (overlap + separator + buffer)
is below the overall bound. -/
theorem emitB_le (P : Nat) : 402 + max 2003 P ≤ max (402 + max 2003 P) 3200 :=
  le_max_left _ _

theorem prevB_le (P : Nat) : max P 3200 ≤ max (402 + max 2003 P) 3200 :=
  Nat.max_le.mpr
    ⟨le_trans (le_trans (le_max_right 2003 P) (Nat.le_add_left _ _)) (le_max_left _ _),
     le_max_right _ _⟩

theorem curB_le_prevB (P : Nat) : max 2003 P ≤ max P 3200 :=
  Nat.max_le.mpr
    ⟨le_trans (by norm_num) (le_max_right P 3200), le_max_left _ _⟩

/-- Token bound of an emitted sub-chunk from its content-length bound. -/
theorem emit_token_le (chunk : DocChunk) (bc : List Str) (url : Str) (P idx : Nat)
    (content : Str) (h : content.length ≤ max (402 + max 2003 P) 3200) :
    (mkSub chunk bc url idx content).tokenCount ≤
      max (402 + max 2003 P) 3200 / 4 := by
  rw [(mkSub_content chunk bc url idx content).2]
  show content.length / CharsPerToken ≤ _
  have h4 : CharsPerToken = 4 := rfl
  rw [h4]
  exact Nat.div_le_div_right h

/-- Length bound of the buffer-flush content (force branch). -/
theorem flush1_content_le (P : Nat) (prev cur : Str)
    (hcur : cur.length ≤ max 2003 P) :
    (if prev ≠ [] ∧ overlapChars < prev.length
      then lastN overlapChars prev ++ lit "\n\n" ++ cur
      else cur).length ≤ 402 + max 2003 P := by
  split_ifs with h
  · have h1 := lastN_length_le overlapChars prev
    have ho : overlapChars = 400 := rfl
    simp only [List.length_append, length_nl2]
    omega
  · omega

/-- Length bound of the buffer-flush content (target-flush branch). -/
theorem flush2_content_le (P : Nat) (prev cur : Str)
    (hcur : cur.length ≤ max 2003 P) :
    (if prev ≠ [] ∧ overlapChars < prev.length
      then lastN overlapChars prev ++ lit "\n\n" ++ cur
      else if prev ≠ [] then prev ++ lit "\n\n" ++ cur else cur).length ≤
      402 + max 2003 P := by
  split_ifs with h1 h2
  · have h := lastN_length_le overlapChars prev
    have ho : overlapChars = 400 := rfl
    simp only [List.length_append, length_nl2]
    omega
  · have ho : overlapChars = 400 := rfl
    have hpl : prev.length ≤ 400 := by
      have h3 : ¬ overlapChars < prev.length := fun hlt => h1 ⟨h2, hlt⟩
      omega
    simp only [List.length_append, length_nl2]
    omega
  · omega

/-- Length bound of the final-flush content. -/
theorem finish_content_le (P : Nat) (prev cur : Str)
    (hcur : cur.length ≤ max 2003 P) :
    (if prev ≠ [] ∧ overlapChars < prev.length
      then lastN overlapChars prev ++ lit "\n\n" ++ cur
      else prev ++ lit "\n\n" ++ cur).length ≤ 402 + max 2003 P := by
  split_ifs with h1
  · have h := lastN_length_le overlapChars prev
    have ho : overlapChars = 400 := rfl
    simp only [List.length_append, length_nl2]
    omega
  · have ho : overlapChars = 400 := rfl
    have hpl : prev.length ≤ 400 := by
      by_cases hp : prev = []
      · rw [hp]; simp
      · have h3 : ¬ overlapChars < prev.length := fun hlt => h1 ⟨hp, hlt⟩
        omega
    simp only [List.length_append, length_nl2]
    omega

/-- One `SubdivideChunk` loop iteration preserves the length invariant,
provided the unit's trimmed length is within `P`. -/
theorem subStep_inv (chunk : DocChunk) (bc : List Str) (url : Str) (P : Nat)
    (st : SubSt) (para : Str)
    (hu : (trimSpace para).length ≤ P) (hinv : SubLenInv P st) :
    SubLenInv P (subStep chunk bc url st para) := by
  obtain ⟨hcur, hprev, hsubs⟩ := hinv
  unfold subStep
  dsimp only
  by_cases hp : trimSpace para = []
  · rw [if_pos hp]
    exact ⟨hcur, hprev, hsubs⟩
  rw [if_neg hp]
  by_cases hbig : MaxChunkTokens < EstimateTokens (trimSpace para)
  · rw [if_pos hbig]
    apply foldl_preserve (SubLenInv P)
    · intro a b hb ha
      obtain ⟨ha1, ha2, ha3⟩ := ha
      have hbl : b.length ≤ 3200 := by
        have hx := fst_part_le (trimSpace para) b hb
        rw [maxChars_eq] at hx
        exact hx
      refine ⟨ha1, le_trans hbl (le_max_right _ _), ?_⟩
      intro c hc
      dsimp only at hc
      rcases List.mem_append.mp hc with h | h
      · exact ha3 c h
      · simp only [List.mem_singleton] at h
        subst h
        exact emit_token_le chunk bc url P a.idx b (le_trans hbl (le_max_right _ _))
    · by_cases hc0 : st.cur ≠ []
      · rw [if_pos hc0]
        refine ⟨by simp, le_trans hcur (curB_le_prevB P), ?_⟩
        intro c hc
        dsimp only at hc
        rcases List.mem_append.mp hc with h | h
        · exact hsubs c h
        · simp only [List.mem_singleton] at h
          subst h
          exact emit_token_le chunk bc url P st.idx _
            (le_trans (flush1_content_le P st.prev st.cur hcur) (emitB_le P))
      · rw [if_neg hc0]
        exact ⟨hcur, hprev, hsubs⟩
  · rw [if_neg hbig]
    by_cases hflush : TargetChunkTokens < EstimateTokens
        (if st.cur = [] then trimSpace para
          else st.cur ++ lit "\n\n" ++ trimSpace para)
    · rw [if_pos hflush]
      refine ⟨?_, ?_, ?_⟩
      · show (trimSpace para).length ≤ max 2003 P
        exact le_trans hu (le_max_right _ _)
      · show st.cur.length ≤ max P 3200
        exact le_trans hcur (curB_le_prevB P)
      · intro c hc
        dsimp only at hc
        rcases List.mem_append.mp hc with h | h
        · exact hsubs c h
        · simp only [List.mem_singleton] at h
          subst h
          apply emit_token_le
          by_cases hcne : st.cur ≠ []
          · rw [if_pos hcne]
            exact le_trans (flush2_content_le P st.prev st.cur hcur) (emitB_le P)
          · rw [if_neg hcne]
            exact le_trans hprev (prevB_le P)
    · rw [if_neg hflush]
      refine ⟨?_, hprev, hsubs⟩
      have htest : (if st.cur = [] then trimSpace para
          else st.cur ++ lit "\n\n" ++ trimSpace para).length ≤ 2003 := by
        have hle : EstimateTokens (if st.cur = [] then trimSpace para
            else st.cur ++ lit "\n\n" ++ trimSpace para) ≤ TargetChunkTokens :=
          Nat.not_lt.mp hflush
        have h4 : EstimateTokens (if st.cur = [] then trimSpace para
            else st.cur ++ lit "\n\n" ++ trimSpace para) =
            (if st.cur = [] then trimSpace para
              else st.cur ++ lit "\n\n" ++ trimSpace para).length / 4 := rfl
        have h5 : TargetChunkTokens = 500 := rfl
        rw [h4, h5] at hle
        omega
      exact le_trans htest (le_max_left _ _)

/-- The final flush preserves the token bound for all emitted chunks. -/
theorem subFinish_inv (chunk : DocChunk) (bc : List Str) (url : Str) (P : Nat)
    (st : SubSt) (hinv : SubLenInv P st) :
    ∀ c ∈ subFinish chunk bc url st,
      c.tokenCount ≤ max (402 + max 2003 P) 3200 / 4 := by
  obtain ⟨hcur, hprev, hsubs⟩ := hinv
  unfold subFinish
  dsimp only
  by_cases hc0 : st.cur ≠ []
  · rw [if_pos hc0]
    intro c hc
    rcases List.mem_append.mp hc with h | h
    · exact hsubs c h
    · simp only [List.mem_singleton] at h
      subst h
      exact emit_token_le chunk bc url P st.idx _
        (le_trans (finish_content_le P st.prev st.cur hcur) (emitB_le P))
  · rw [if_neg hc0]
    exact hsubs

/-- C1: every chunk emitted by `SubdivideChunk` has a token count of at
most `MaxChunkTokens` (800) plus the token estimate of one unsplit unit
(paragraph, or sentence in the single-paragraph fallback) of the section;
sections whose content is at most 800 estimated tokens are emitted as one
chunk with `token_count ≤ 800`.  (`ParseDocumentation` obtains all its
chunks from `SubdivideChunk`, changing only identifiers.) -/
theorem token_budget (chunk : DocChunk) (bc : List Str) (url : Str) :
    (∀ c ∈ SubdivideChunk chunk bc url,
      c.tokenCount ≤ MaxChunkTokens + maxUnitTokens chunk.content) ∧
    (EstimateTokens chunk.content ≤ MaxChunkTokens →
      ∀ c ∈ SubdivideChunk chunk bc url, c.tokenCount ≤ MaxChunkTokens) := by
  have h800 : MaxChunkTokens = 800 := rfl
  by_cases hsm : EstimateTokens chunk.content ≤ MaxChunkTokens
  · have hsub : SubdivideChunk chunk bc url = [EnrichMetadata chunk bc url] := by
      unfold SubdivideChunk
      rw [if_pos hsm]
    have htok : (EnrichMetadata chunk bc url).tokenCount =
        EstimateTokens chunk.content :=
      (enrich_fields chunk bc url).2.2.2.2.2
    constructor
    · intro c hc
      rw [hsub, List.mem_singleton] at hc
      subst hc
      rw [htok]
      exact le_trans hsm (Nat.le_add_right _ _)
    · intro _ c hc
      rw [hsub, List.mem_singleton] at hc
      subst hc
      rw [htok]
      exact hsm
  · refine ⟨?_, fun h => absurd h hsm⟩
    intro c hc
    rw [h800, maxUnitTokens_eq]
    set P := ((splitUnits chunk.content).map
      (fun u => (trimSpace u).length)).foldr max 0 with hP
    unfold SubdivideChunk at hc
    rw [if_neg hsm] at hc
    dsimp only at hc
    have hloop : SubLenInv P
        ((splitUnits chunk.content).foldl (subStep chunk bc url) {}) := by
      apply foldl_preserve (SubLenInv P) _ _ ?_ _ ?_
      · intro a b hb hinv
        exact subStep_inv chunk bc url P a b
          (le_foldr_max _ _ (List.mem_map_of_mem _ hb)) hinv
      · exact ⟨by simp, by simp, by simp⟩
    have hfin := subFinish_inv chunk bc url P _ hloop
    by_cases hempty : subFinish chunk bc url
        ((splitUnits chunk.content).foldl (subStep chunk bc url) {}) = []
    · rw [if_pos hempty] at hc
      by_cases hlen : maxChars < chunk.content.length
      · rw [if_pos hlen] at hc
        obtain ⟨ip, hmem, hceq⟩ := List.mem_map.mp hc
        subst hceq
        rw [(mkSub_content chunk bc url ip.1 ip.2).2]
        have hple : ip.2.length ≤ maxChars := by
          apply fst_part_le
          exact List.get?_mem (List.mem_enum_iff_get?.mp hmem)
        rw [maxChars_eq] at hple
        have h4 : EstimateTokens ip.2 = ip.2.length / 4 := rfl
        rw [h4]
        omega
      · rw [if_neg hlen] at hc
        rw [List.mem_singleton] at hc
        subst hc
        rw [(enrich_fields chunk bc url).2.2.2.2.2]
        have h4 : EstimateTokens chunk.content = chunk.content.length / 4 := rfl
        rw [h4]
        rw [maxChars_eq] at hlen
        omega
    · rw [if_neg hempty] at hc
      have hb := hfin c hc
      rcases le_total 2003 P with h1 | h1
      · rw [Nat.max_eq_right h1] at hb
        rcases le_total (402 + P) 3200 with h2 | h2
        · rw [Nat.max_eq_right h2] at hb
          omega
        · rw [Nat.max_eq_left h2] at hb
          omega
      · rw [Nat.max_eq_left h1] at hb
        rcases le_total (402 + 2003) 3200 with h2 | h2
        · rw [Nat.max_eq_right h2] at hb
          omega
        · rw [Nat.max_eq_left h2] at hb
          omega

/-- C1 witness: a concrete small section is emitted as one enriched chunk
within the budget. -/
theorem token_budget_witness :
    ((EnrichMetadata { id := lit "w", content := lit "hello world" } [] []) ∈
        SubdivideChunk { id := lit "w", content := lit "hello world" } [] []) ∧
    (EnrichMetadata { id := lit "w", content := lit "hello world" } [] []).tokenCount ≤
        MaxChunkTokens +
          maxUnitTokens ({ id := lit "w", content := lit "hello world" } : DocChunk).content ∧
    (EnrichMetadata { id := lit "w", content := lit "hello world" } [] []).tokenCount ≤
        MaxChunkTokens := by
  have hmem : (EnrichMetadata { id := lit "w", content := lit "hello world" } [] []) ∈
      SubdivideChunk { id := lit "w", content := lit "hello world" } [] [] := by
    decide
  exact ⟨hmem,
    (token_budget { id := lit "w", content := lit "hello world" } [] []).1 _ hmem,
    (token_budget { id := lit "w", content := lit "hello world" } [] []).2
      (by decide) _ hmem⟩

/-! ## C6 (amended): sub-chunk identifiers and subcategories -/

theorem get?_append_singleton {α : Type} (l : List α) (x : α) (i : Nat) (c : α)
    (h : (l ++ [x]).get? i = some c) :
    l.get? i = some c ∨ (i = l.length ∧ c = x) := by
  rcases lt_trichotomy i l.length with hl | he | hg
  · left
    rw [← List.get?_append hl]
    exact h
  · right
    subst he
    rw [List.get?_concat_length] at h
    exact ⟨rfl, (Option.some_inj.mp h).symm⟩
  · exfalso
    rw [List.get?_eq_none.mpr (by simp; omega)] at h
    cases h

/-- The identifier of an emitted sub-chunk. -/
theorem mkSub_id (chunk : DocChunk) (bc : List Str) (url : Str) (i : Nat)
    (cnt : Str) :
    (mkSub chunk bc url i cnt).id = chunk.id ++ lit "_sub" ++ natStr i := by
  unfold mkSub
  rw [(enrich_fields _ bc url).1, (improve_fields _ _ _).1]

/-- The subcategory rule of an emitted sub-chunk: first `###`+ header of
its own content if any, else a part label for later pieces, else the
parent's subcategory. -/
theorem mkSub_subcategory (chunk : DocChunk) (bc : List Str) (url : Str)
    (i : Nat) (cnt : Str) :
    (mkSub chunk bc url i cnt).subcategory =
      (if ExtractFirstHeader cnt ≠ [] then ExtractFirstHeader cnt
       else if 0 < i then
         chunk.category ++ lit " (part " ++ natStr (i + 1) ++ lit ")"
       else chunk.subcategory) := by
  unfold mkSub
  rw [(enrich_fields _ bc url).2.2.2.1]
  unfold improveSubchunkTitle
  dsimp only
  split_ifs <;> rfl

/-- Positional invariant of the `SubdivideChunk` loop: the running index
equals the number of emitted sub-chunks, and the sub-chunk at position
`i` was emitted by `mkSub` with index `i`. -/
def SubIdxInv (chunk : DocChunk) (bc : List Str) (url : Str) (st : SubSt) : Prop :=
  st.idx = st.subs.length ∧
  ∀ i c, st.subs.get? i = some c → ∃ cnt, c = mkSub chunk bc url i cnt

/-- Appending one `mkSub`-emission at the running index preserves the
positional invariant. -/
theorem subIdx_append (chunk : DocChunk) (bc : List Str) (url : Str)
    (subs : List DocChunk) (idx : Nat) (cnt : Str)
    (hidx : idx = subs.length)
    (hall : ∀ i c, subs.get? i = some c → ∃ cnt0, c = mkSub chunk bc url i cnt0) :
    idx + 1 = (subs ++ [mkSub chunk bc url idx cnt]).length ∧
    ∀ i c, (subs ++ [mkSub chunk bc url idx cnt]).get? i = some c →
      ∃ cnt0, c = mkSub chunk bc url i cnt0 := by
  constructor
  · simp [hidx]
  · intro i c h
    rcases get?_append_singleton _ _ _ _ h with h1 | ⟨h1, h2⟩
    · exact hall i c h1
    · subst h2
      rw [h1, ← hidx]
      exact ⟨cnt, rfl⟩

/-- One loop iteration preserves the positional invariant. -/
theorem subStep_idx (chunk : DocChunk) (bc : List Str) (url : Str)
    (st : SubSt) (para : Str) (hinv : SubIdxInv chunk bc url st) :
    SubIdxInv chunk bc url (subStep chunk bc url st para) := by
  obtain ⟨hidx, hall⟩ := hinv
  unfold subStep
  dsimp only
  by_cases hp : trimSpace para = []
  · rw [if_pos hp]
    exact ⟨hidx, hall⟩
  rw [if_neg hp]
  by_cases hbig : MaxChunkTokens < EstimateTokens (trimSpace para)
  · rw [if_pos hbig]
    apply foldl_preserve (SubIdxInv chunk bc url)
    · intro a b _ ⟨ha1, ha2⟩
      exact subIdx_append chunk bc url a.subs a.idx b ha1 ha2
    · by_cases hc0 : st.cur ≠ []
      · rw [if_pos hc0]
        exact subIdx_append chunk bc url st.subs st.idx _ hidx hall
      · rw [if_neg hc0]
        exact ⟨hidx, hall⟩
  · rw [if_neg hbig]
    by_cases hflush : TargetChunkTokens < EstimateTokens
        (if st.cur = [] then trimSpace para
          else st.cur ++ lit "\n\n" ++ trimSpace para)
    · rw [if_pos hflush]
      exact subIdx_append chunk bc url st.subs st.idx _ hidx hall
    · rw [if_neg hflush]
      exact ⟨hidx, hall⟩

/-- The final flush preserves the per-position emission shape. -/
theorem subFinish_idx (chunk : DocChunk) (bc : List Str) (url : Str)
    (st : SubSt) (hinv : SubIdxInv chunk bc url st) :
    ∀ i c, (subFinish chunk bc url st).get? i = some c →
      ∃ cnt, c = mkSub chunk bc url i cnt := by
  obtain ⟨hidx, hall⟩ := hinv
  unfold subFinish
  dsimp only
  by_cases hc0 : st.cur ≠ []
  · rw [if_pos hc0]
    exact (subIdx_append chunk bc url st.subs st.idx _ hidx hall).2
  · rw [if_neg hc0]
    exact hall

/-- Every sub-chunk that `SubdivideChunk` emits for an oversized section
is an `mkSub` emission at its own zero-based position. -/
theorem subdivide_shape (chunk : DocChunk) (bc : List Str) (url : Str)
    (h : MaxChunkTokens < EstimateTokens chunk.content) :
    ∀ i c, (SubdivideChunk chunk bc url).get? i = some c →
      ∃ cnt, c = mkSub chunk bc url i cnt := by
  unfold SubdivideChunk
  rw [if_neg (Nat.not_le.mpr h)]
  dsimp only
  have hloop : SubIdxInv chunk bc url
      ((splitUnits chunk.content).foldl (subStep chunk bc url) {}) := by
    apply foldl_preserve (SubIdxInv chunk bc url) _ _ ?_ _ ?_
    · intro a b _ hinv
      exact subStep_idx chunk bc url a b hinv
    · exact ⟨rfl, fun i c hic => by cases hic⟩
  by_cases hempty : subFinish chunk bc url
      ((splitUnits chunk.content).foldl (subStep chunk bc url) {}) = []
  · rw [if_pos hempty]
    have hlen : maxChars < chunk.content.length := by
      have h4 : EstimateTokens chunk.content = chunk.content.length / 4 := rfl
      rw [h4] at h
      rw [maxChars_eq]
      have h800 : MaxChunkTokens = 800 := rfl
      rw [h800] at h
      omega
    rw [if_pos hlen]
    intro i c hic
    rw [List.get?_map, List.get?_enum, Option.map_map] at hic
    obtain ⟨p, hp, hceq⟩ := Option.map_eq_some'.mp hic
    exact ⟨p, hceq.symm⟩
  · rw [if_neg hempty]
    exact subFinish_idx chunk bc url _ hloop

/-- C6 (amended): for every sub-chunk produced by splitting an oversized
section, its identifier is `<parentID>_sub<N>` where `N` is its zero-based
position, and its subcategory is the first `###`-prefixed heading found in
its own content if one exists, else `"<category> (part N+1)"` when
`N > 0`, else the parent chunk's (inherited) subcategory.  (The original
claim's `"(part N+1)"` fallback for `N = 0` and its level-3–5 restriction
do not match the code; see the counterexample.) -/
theorem subchunk_title_rule (chunk : DocChunk) (bc : List Str) (url : Str)
    (h : MaxChunkTokens < EstimateTokens chunk.content) :
    ∀ i c, (SubdivideChunk chunk bc url).get? i = some c →
      c.id = chunk.id ++ lit "_sub" ++ natStr i ∧
      c.subcategory =
        (if ExtractFirstHeader c.content ≠ [] then ExtractFirstHeader c.content
         else if 0 < i then
           chunk.category ++ lit " (part " ++ natStr (i + 1) ++ lit ")"
         else chunk.subcategory) := by
  intro i c hic
  obtain ⟨cnt, hc⟩ := subdivide_shape chunk bc url h i c hic
  subst hc
  have hcn := (mkSub_content chunk bc url i cnt).1
  refine ⟨mkSub_id chunk bc url i cnt, ?_⟩
  rw [mkSub_subcategory chunk bc url i cnt, hcn]

/-! ## Symbolic evaluation toolkit for concrete large inputs

The counterexample inputs are longer than 3200 characters (forced by the
`MaxChunkTokens` threshold), too long for kernel evaluation; the following
lemmas evaluate the engine on `List.replicate`-structured inputs
equationally. -/

theorem dropWhile_all_false (p : Char → Bool) :
    ∀ (s : Str), (∀ c ∈ s, p c = false) → s.dropWhile p = s := by
  intro s h
  cases s with
  | nil => rfl
  | cons x t =>
    rw [List.dropWhile_cons, h x (List.mem_cons_self _ _)]
    simp

theorem trimSpace_no_space (s : Str) (h : ∀ c ∈ s, isGoSpace c = false) :
    trimSpace s = s := by
  unfold trimSpace trimLeft trimRight
  rw [dropWhile_all_false _ s h]
  rw [dropWhile_all_false _ s.reverse (fun c hc => h c (List.mem_reverse.mp hc))]
  exact List.reverse_reverse s

theorem findSub_cons (pat : Str) (x : Char) (t : Str) :
    findSub pat (x :: t) =
      if startsWithL (x :: t) pat then some 0
      else (findSub pat t).map (· + 1) := rfl

theorem startsWithL_head_ne (p : Char) (ps : Str) (x : Char) (t : Str)
    (hne : x ≠ p) : startsWithL (x :: t) (p :: ps) = false := by
  show ((p = x : Bool) && startsWithL t ps) = false
  have : (p = x : Bool) = false := by
    simp only [decide_eq_false_iff_not]
    exact fun hp => hne hp.symm
  rw [this, Bool.false_and]

theorem findSub_none_head (p : Char) (ps s : Str) (h : ∀ c ∈ s, c ≠ p) :
    findSub (p :: ps) s = none := by
  induction s with
  | nil => rfl
  | cons x t ih =>
    rw [findSub_cons,
      startsWithL_head_ne p ps x t (h x (List.mem_cons_self _ _)),
      if_neg (by simp), ih (fun c hc => h c (List.mem_cons_of_mem _ hc))]
    rfl

theorem findSub_replicate_skip (p : Char) (ps : Str) (c : Char) (hne : c ≠ p) :
    ∀ (n : Nat) (rest : Str),
      findSub (p :: ps) (List.replicate n c ++ rest) =
        (findSub (p :: ps) rest).map (· + n) := by
  intro n
  induction n with
  | zero =>
    intro rest
    simp only [List.replicate, List.nil_append]
    cases findSub (p :: ps) rest <;> simp
  | succ m ih =>
    intro rest
    rw [List.replicate_succ, List.cons_append, findSub_cons,
      startsWithL_head_ne p ps c _ hne, if_neg (by simp), ih rest]
    cases findSub (p :: ps) rest with
    | none => rfl
    | some v =>
      show some (v + m + 1) = some (v + (m + 1))
      exact congrArg some (by omega)

theorem splitOnF_succ (f : Nat) (pat s : Str) :
    splitOnF (f + 1) pat s =
      match findSub pat s with
      | none => [s]
      | some i => s.take i :: splitOnF f pat (s.drop (i + pat.length)) := rfl

theorem splitOnF_none (f : Nat) (pat s : Str) (h : findSub pat s = none) :
    splitOnF (f + 1) pat s = [s] := by
  rw [splitOnF_succ, h]

theorem splitOnF_some (f : Nat) (pat s : Str) (i : Nat)
    (h : findSub pat s = some i) :
    splitOnF (f + 1) pat s =
      s.take i :: splitOnF f pat (s.drop (i + pat.length)) := by
  rw [splitOnF_succ, h]

theorem splitOnL_none (pat s : Str) (h : findSub pat s = none) :
    splitOnL pat s = [s] :=
  splitOnF_none _ _ _ h

theorem charAt_replicate (n : Nat) (c : Char) (i : Nat) :
    charAt (List.replicate n c) i = if i < n then c else 'x' := by
  simp [charAt, List.getD, List.getElem?_replicate]
  split_ifs <;> rfl

theorem lookBack_stay (text : Str) (cs0 : Nat)
    (h : ∀ i, isCutChar (charAt text i) = false) :
    ∀ j, lookBack text cs0 j = cs0 := by
  intro j
  induction j with
  | zero => rfl
  | succ m ih =>
    unfold lookBack
    rw [h (m + 1)]
    simp only [Bool.false_eq_true, if_neg (by exact fun hf => hf)]
    split_ifs <;> first | exact ih | rfl

theorem startsWith_replicate_a_hashes (n : Nat) :
    startsWithL ('a' :: List.replicate n 'a') (lit "###") = false := rfl

theorem trimSpace_replicate_a (n : Nat) :
    trimSpace (List.replicate n 'a') = List.replicate n 'a' :=
  trimSpace_no_space _ (fun c hc => by rw [List.eq_of_mem_replicate hc]; rfl)

/-! ## Evaluation of the chunking pipeline on `exParent` -/

theorem no_cut_repA (n i : Nat) :
    isCutChar (charAt (List.replicate n 'a') i) = false := by
  rw [charAt_replicate]
  split_ifs <;> rfl

theorem forceStep_repA :
    forceStep (List.replicate 3204 'a') maxChars overlapChars =
      (List.replicate 3200 'a', List.replicate 4 'a') := by
  have hlb : lookBack (List.replicate 3204 'a') 3200 3200 = 3200 :=
    lookBack_stay _ 3200 (fun i => no_cut_repA 3204 i) 3200
  rw [maxChars_eq, overlapChars_eq]
  simp only [forceStep, List.length_replicate]
  rw [show min (3200 : Nat) 3204 = 3200 from rfl,
    if_pos (by omega : (3200 : Nat) < 3204), hlb,
    if_neg (by omega : ¬ ((3200 : Nat) + 400 < 3204)),
    List.take_replicate, List.drop_replicate]
  rfl

theorem forceStep_repA4 :
    forceStep (List.replicate 4 'a') maxChars overlapChars =
      (List.replicate 4 'a', []) := by
  rw [maxChars_eq, overlapChars_eq]
  simp only [forceStep, List.length_replicate]
  rw [show min (3200 : Nat) 4 = 4 from rfl, if_neg (lt_irrefl 4),
    if_neg (by omega : ¬ ((4 : Nat) + 400 < 4)),
    List.take_replicate, List.drop_replicate]
  rfl

theorem rep_ne_nil (n : Nat) (c : Char) (h : 0 < n) :
    List.replicate n c ≠ ([] : Str) := by
  intro he
  have := congrArg List.length he
  rw [List.length_replicate, List.length_nil] at this
  omega

theorem fst_repA :
    ForceSplitText (List.replicate 3204 'a') maxChars overlapChars =
      [List.replicate 3200 'a', List.replicate 4 'a'] := by
  unfold ForceSplitText
  rw [fstF_cons _ _ (rep_ne_nil _ _ (by omega)), forceStep_repA]
  dsimp only
  simp only [List.length_replicate]
  rw [show (3204 : Nat) = 3203 + 1 from rfl,
    fstF_cons _ _ (rep_ne_nil _ _ (by omega)), forceStep_repA4]
  dsimp only
  rw [fstF_nil]
  rfl

theorem splitNL2_repA (n : Nat) :
    splitOnL (lit "\n\n") (List.replicate n 'a') = [List.replicate n 'a'] := by
  apply splitOnL_none
  show findSub ('\n' :: ['\n']) (List.replicate n 'a') = none
  exact findSub_none_head _ _ _ (fun c hc => by
    rw [List.eq_of_mem_replicate hc]; decide)

theorem splitDot_repA (n : Nat) :
    splitOnL (lit ". ") (List.replicate n 'a') = [List.replicate n 'a'] := by
  apply splitOnL_none
  show findSub ('.' :: [' ']) (List.replicate n 'a') = none
  exact findSub_none_head _ _ _ (fun c hc => by
    rw [List.eq_of_mem_replicate hc]; decide)

theorem splitUnits_repA (n : Nat) :
    splitUnits (List.replicate n 'a') = [List.replicate n 'a'] := by
  simp only [splitUnits, splitNL2_repA n, splitDot_repA n]
  rw [if_pos (by simp)]
  rfl

theorem subStep_exParent :
    subStep exParent [lit "Pg"] [] {} (List.replicate 3204 'a') =
      { subs := [mkSub exParent [lit "Pg"] [] 0 (List.replicate 3200 'a'),
                 mkSub exParent [lit "Pg"] [] 1 (List.replicate 4 'a')],
        cur := [], prev := List.replicate 4 'a', idx := 2 } := by
  have hlt : MaxChunkTokens < EstimateTokens (List.replicate 3204 'a') := by
    show MaxChunkTokens < (List.replicate 3204 'a').length / CharsPerToken
    rw [List.length_replicate]
    decide
  simp only [subStep, trimSpace_replicate_a]
  rw [if_neg (rep_ne_nil 3204 'a' (by omega)), if_pos hlt, fst_repA]
  rfl

theorem subdivide_exParent :
    SubdivideChunk exParent [lit "Pg"] [] =
      [mkSub exParent [lit "Pg"] [] 0 (List.replicate 3200 'a'),
       mkSub exParent [lit "Pg"] [] 1 (List.replicate 4 'a')] := by
  have ht : ¬ (EstimateTokens exParent.content ≤ MaxChunkTokens) := by
    intro hle
    rw [show exParent.content = List.replicate 3204 'a' from rfl] at hle
    simp only [EstimateTokens, List.length_replicate] at hle
    exact absurd hle (by decide)
  simp only [SubdivideChunk]
  rw [if_neg ht,
    show exParent.content = List.replicate 3204 'a' from rfl,
    splitUnits_repA, List.foldl_cons, List.foldl_nil, subStep_exParent]
  rw [show subFinish exParent [lit "Pg"] []
      { subs := [mkSub exParent [lit "Pg"] [] 0 (List.replicate 3200 'a'),
                 mkSub exParent [lit "Pg"] [] 1 (List.replicate 4 'a')],
        cur := [], prev := List.replicate 4 'a', idx := 2 } =
      [mkSub exParent [lit "Pg"] [] 0 (List.replicate 3200 'a'),
       mkSub exParent [lit "Pg"] [] 1 (List.replicate 4 'a')] from by
    simp only [subFinish]
    rw [if_neg (fun h => h rfl)]]
  rw [if_neg (List.cons_ne_nil _ _)]

theorem splitNL1_repA (n : Nat) :
    splitOnL (lit "\n") (List.replicate n 'a') = [List.replicate n 'a'] := by
  apply splitOnL_none
  show findSub ('\n' :: []) (List.replicate n 'a') = none
  exact findSub_none_head _ _ _ (fun c hc => by
    rw [List.eq_of_mem_replicate hc]; decide)

theorem efh_repA (n : Nat) :
    ExtractFirstHeader (List.replicate (n + 1) 'a') = [] := by
  unfold ExtractFirstHeader
  rw [splitNL1_repA]
  simp only [firstHeaderOfLines, trimSpace_replicate_a]
  rw [List.replicate_succ, startsWith_replicate_a_hashes, if_neg (by simp)]

theorem efh_rep3200 : ExtractFirstHeader (List.replicate 3200 'a') = [] := by
  rw [show (3200 : Nat) = 3199 + 1 from rfl]
  exact efh_repA 3199

/-- C6 witness: the identifier and subcategory rule evaluated at the
concrete oversized chunk `exParent` (801 estimated tokens), position 0:
the content has no heading, the index is 0, so the sub-chunk keeps the
parent's subcategory. -/
theorem subchunk_title_rule_witness :
    MaxChunkTokens < EstimateTokens exParent.content ∧
    ((SubdivideChunk exParent [lit "Pg"] []).get? 0 =
        some (mkSub exParent [lit "Pg"] [] 0 (List.replicate 3200 'a'))) ∧
    ((mkSub exParent [lit "Pg"] [] 0 (List.replicate 3200 'a')).id =
        exParent.id ++ lit "_sub" ++ natStr 0 ∧
      (mkSub exParent [lit "Pg"] [] 0 (List.replicate 3200 'a')).subcategory =
        (if ExtractFirstHeader
              (mkSub exParent [lit "Pg"] [] 0 (List.replicate 3200 'a')).content ≠ []
          then ExtractFirstHeader
              (mkSub exParent [lit "Pg"] [] 0 (List.replicate 3200 'a')).content
          else if 0 < 0 then
            exParent.category ++ lit " (part " ++ natStr (0 + 1) ++ lit ")"
          else exParent.subcategory)) := by
  have h : MaxChunkTokens < EstimateTokens exParent.content := by
    rw [show exParent.content = List.replicate 3204 'a' from rfl]
    simp only [EstimateTokens, List.length_replicate]
    decide
  have hget : (SubdivideChunk exParent [lit "Pg"] []).get? 0 =
      some (mkSub exParent [lit "Pg"] [] 0 (List.replicate 3200 'a')) := by
    rw [subdivide_exParent]
    rfl
  exact ⟨h, hget, subchunk_title_rule exParent [lit "Pg"] [] h 0 _ hget⟩

/-- C6 counterexample: the claimed fallback `"<category> (part N+1)"` is
wrong at position 0.  At `exParent` (801-token content of repeated
letters, no headings) the first emitted sub-chunk keeps the parent's
subcategory `"Parent"`; the claim predicts `"Cat (part 1)"`. -/
theorem subchunk_title_claim_false :
    ¬ (∀ (chunk : DocChunk) (bc : List Str) (url : Str),
        MaxChunkTokens < EstimateTokens chunk.content →
        ∀ i c, (SubdivideChunk chunk bc url).get? i = some c →
          c.subcategory =
            (if ExtractFirstHeader c.content ≠ [] then ExtractFirstHeader c.content
             else chunk.category ++ lit " (part " ++ natStr (i + 1) ++ lit ")")) := by
  intro hclaim
  have h : MaxChunkTokens < EstimateTokens exParent.content := by
    rw [show exParent.content = List.replicate 3204 'a' from rfl]
    simp only [EstimateTokens, List.length_replicate]
    decide
  have hget : (SubdivideChunk exParent [lit "Pg"] []).get? 0 =
      some (mkSub exParent [lit "Pg"] [] 0 (List.replicate 3200 'a')) := by
    rw [subdivide_exParent]
    rfl
  have hc := hclaim exParent [lit "Pg"] [] h 0 _ hget
  rw [mkSub_subcategory, (mkSub_content exParent [lit "Pg"] [] 0 _).1,
    efh_rep3200] at hc
  simp only [ne_eq, not_true_eq_false] at hc
  rw [if_neg (by simp), if_neg (by simp)] at hc
  rw [show exParent.subcategory = lit "Parent" from rfl,
    show exParent.category = lit "Cat" from rfl] at hc
  exact absurd hc (by decide)

/-! ## Evaluation of the chunking pipeline on `exSec` -/

theorem trimSpace_replicate (n : Nat) (c : Char) (h : isGoSpace c = false) :
    trimSpace (List.replicate n c) = List.replicate n c :=
  trimSpace_no_space _ (fun x hx => by rw [List.eq_of_mem_replicate hx]; exact h)

theorem trimLeft_cons_false (x : Char) (t : Str) (h : isGoSpace x = false) :
    trimLeft (x :: t) = x :: t := by
  unfold trimLeft
  rw [List.dropWhile_cons, h]
  simp

theorem trimRight_concat_false (s : Str) (x : Char) (h : isGoSpace x = false) :
    trimRight (s ++ [x]) = s ++ [x] := by
  unfold trimRight
  rw [show (s ++ [x]).reverse = x :: s.reverse from by
    rw [List.reverse_append]; rfl]
  rw [List.dropWhile_cons, h]
  simp

theorem trimSpace_exU1 : trimSpace exU1 = exU1 := by
  unfold trimSpace exU1
  rw [show (2000 : Nat) = 1999 + 1 from rfl, List.replicate_succ, List.cons_append,
    trimLeft_cons_false _ _ (by decide), ← List.cons_append, ← List.replicate_succ]
  exact trimRight_concat_false _ '.' (by decide)

theorem trimSpace_exU2 : trimSpace exU2 = exU2 :=
  trimSpace_replicate 2000 'b' (by decide)

theorem exU1_len : exU1.length = 2001 := by
  unfold exU1
  rw [List.length_append, List.length_replicate]
  rfl

theorem exU1_ne_nil : exU1 ≠ ([] : Str) := by
  intro he
  have := congrArg List.length he
  rw [exU1_len] at this
  exact absurd this (by decide)

theorem exU2_ne_nil : exU2 ≠ ([] : Str) :=
  rep_ne_nil 2000 'b' (by omega)

theorem estU1 : EstimateTokens exU1 = 500 := by
  simp only [EstimateTokens, exU1_len]
  decide

theorem estU2 : EstimateTokens exU2 = 500 := by
  simp only [EstimateTokens]
  rw [show exU2.length = 2000 from by
    unfold exU2; rw [List.length_replicate]]
  decide

theorem estTest : EstimateTokens (exU1 ++ lit "\n\n" ++ exU2) = 1000 := by
  simp only [EstimateTokens, List.length_append, exU1_len,
    show ((lit "\n\n" : Str)).length = 2 from rfl,
    show exU2.length = 2000 from by unfold exU2; rw [List.length_replicate]]
  decide

theorem splitNL2_exSec :
    splitOnL (lit "\n\n")
      ((List.replicate 2000 'a' ++ lit ". ") ++ List.replicate 2000 'b') =
      [(List.replicate 2000 'a' ++ lit ". ") ++ List.replicate 2000 'b'] := by
  apply splitOnL_none
  show findSub ('\n' :: ['\n']) _ = none
  apply findSub_none_head
  intro c hc
  rcases List.mem_append.mp hc with h | h
  · rcases List.mem_append.mp h with h2 | h2
    · rw [List.eq_of_mem_replicate h2]; decide
    · have h2' : c ∈ ('.' :: ([' '] : Str)) := h2
      simp only [List.mem_cons, List.not_mem_nil, or_false] at h2'
      rcases h2' with h3 | h3 <;> (rw [h3]; decide)
  · rw [List.eq_of_mem_replicate h]; decide

theorem startsWithL_nil_pat (s : Str) : startsWithL s [] = true := by
  cases s <;> rfl

theorem findSub_dotspace :
    findSub ('.' :: [' ']) ('.' :: (' ' :: List.replicate 2000 'b')) = some 0 := by
  have hsw : startsWithL ('.' :: (' ' :: List.replicate 2000 'b'))
      ('.' :: [' ']) = true := by
    show (('.' = '.' : Bool) &&
      ((' ' = ' ' : Bool) && startsWithL (List.replicate 2000 'b') [])) = true
    rw [startsWithL_nil_pat]
    rfl
  rw [findSub_cons, hsw, if_pos rfl]

theorem findSub_sentence_exSec :
    findSub (lit ". ")
      ((List.replicate 2000 'a' ++ lit ". ") ++ List.replicate 2000 'b') =
      some 2000 := by
  rw [show (lit ". ") = ('.' :: ([' '] : Str)) from rfl, List.append_assoc,
    List.cons_append, List.singleton_append]
  rw [findSub_replicate_skip '.' [' '] 'a' (by decide) 2000, findSub_dotspace]
  rfl

theorem splitDot_exSec :
    splitOnL (lit ". ")
      ((List.replicate 2000 'a' ++ lit ". ") ++ List.replicate 2000 'b') =
      [List.replicate 2000 'a', List.replicate 2000 'b'] := by
  have hlen2002 : (List.replicate 2000 'a' ++ lit ". ").length = 2002 := by
    rw [List.length_append, List.length_replicate]
    rfl
  have hnone : findSub (lit ". ") (List.replicate 2000 'b') = none := by
    show findSub ('.' :: [' ']) (List.replicate 2000 'b') = none
    exact findSub_none_head _ _ _ (fun c hc => by
      rw [List.eq_of_mem_replicate hc]; decide)
  unfold splitOnL
  rw [splitOnF_some _ _ _ 2000 findSub_sentence_exSec,
    show (2000 + (lit ". ").length : Nat) = 2002 from rfl,
    List.drop_left' hlen2002,
    show ((List.replicate 2000 'a' ++ lit ". ") ++
      List.replicate 2000 'b').length = 4002 from by
      rw [List.length_append, hlen2002, List.length_replicate],
    show (4002 : Nat) = 4001 + 1 from rfl,
    splitOnF_none _ _ _ hnone,
    List.append_assoc, List.take_left' (List.length_replicate 2000 'a')]

theorem splitUnits_exSec :
    splitUnits ((List.replicate 2000 'a' ++ lit ". ") ++ List.replicate 2000 'b') =
      [exU1, exU2] := by
  simp only [splitUnits, splitNL2_exSec, splitDot_exSec]
  rw [if_pos (show List.length [(List.replicate 2000 'a' ++ lit ". ") ++
    List.replicate 2000 'b'] ≤ 1 from by rw [List.length_singleton])]
  rfl

theorem subStep_exSec1 :
    subStep exSec [lit "Pg"] [] {} exU1 =
      { subs := [], cur := exU1, prev := [], idx := 0 } := by
  simp only [subStep, trimSpace_exU1, estU1]
  rw [if_neg exU1_ne_nil]
  rw [if_neg (by decide : ¬ (MaxChunkTokens < 500))]
  rw [if_pos trivial]
  rw [estU1]
  rw [if_neg (by decide : ¬ (TargetChunkTokens < 500))]
  rfl

theorem subStep_exSec2 :
    subStep exSec [lit "Pg"] []
      { subs := [], cur := exU1, prev := [], idx := 0 } exU2 =
      { subs := [mkSub exSec [lit "Pg"] [] 0 exU1], cur := exU2, prev := exU1,
        idx := 1 } := by
  simp only [subStep, trimSpace_exU2, estU2]
  rw [if_neg exU2_ne_nil]
  rw [if_neg (by decide : ¬ (MaxChunkTokens < 500))]
  rw [if_neg exU1_ne_nil]
  rw [estTest]
  rw [if_pos (by decide : TargetChunkTokens < 1000)]
  rw [if_pos exU1_ne_nil]
  rw [if_neg (fun hand => hand.1 rfl :
    ¬ (([] : Str) ≠ [] ∧ overlapChars < List.length ([] : Str)))]
  rw [if_neg (fun hne => hne rfl : ¬ (([] : Str) ≠ []))]
  rfl

theorem subFinish_exSec :
    subFinish exSec [lit "Pg"] []
      { subs := [mkSub exSec [lit "Pg"] [] 0 exU1], cur := exU2, prev := exU1,
        idx := 1 } =
      [mkSub exSec [lit "Pg"] [] 0 exU1,
       mkSub exSec [lit "Pg"] [] 1
         (lastN overlapChars exU1 ++ lit "\n\n" ++ exU2)] := by
  have hlong : overlapChars < exU1.length := by
    rw [exU1_len, overlapChars_eq]
    decide
  simp only [subFinish]
  rw [if_pos exU2_ne_nil]
  rw [if_pos ((⟨exU1_ne_nil, hlong⟩ :
    exU1 ≠ [] ∧ overlapChars < List.length exU1))]
  rfl

theorem subdivide_exSec :
    SubdivideChunk exSec [lit "Pg"] [] =
      [mkSub exSec [lit "Pg"] [] 0 exU1,
       mkSub exSec [lit "Pg"] [] 1
         (lastN overlapChars exU1 ++ lit "\n\n" ++ exU2)] := by
  have ht : ¬ (EstimateTokens exSec.content ≤ MaxChunkTokens) := by
    intro hle
    rw [show exSec.content =
      (List.replicate 2000 'a' ++ lit ". ") ++ List.replicate 2000 'b' from rfl] at hle
    simp only [EstimateTokens] at hle
    rw [show ((List.replicate 2000 'a' ++ lit ". ") ++
        List.replicate 2000 'b').length = 4002 from by
      rw [List.length_append, List.length_append, List.length_replicate,
        List.length_replicate]
      rfl] at hle
    exact absurd hle (by decide)
  simp only [SubdivideChunk]
  rw [if_neg ht,
    show exSec.content =
      (List.replicate 2000 'a' ++ lit ". ") ++ List.replicate 2000 'b' from rfl,
    splitUnits_exSec, List.foldl_cons, subStep_exSec1, List.foldl_cons,
    subStep_exSec2, List.foldl_nil, subFinish_exSec]
  rw [if_neg (List.cons_ne_nil _ _)]

theorem lastN_len_exU1 : (lastN overlapChars exU1).length = 400 := by
  unfold lastN
  rw [List.length_drop, exU1_len, overlapChars_eq]

/-- C2 counterexample: the claimed exact reconstruction fails on the
paragraph/sentence path.  The two-sentence section `exSec` (4002
characters) is split into `exU1` and an overlap chunk
`lastN 400 exU1 ++ "\n\n" ++ exU2`; removing the 400-character overlap
prefix of the second chunk and concatenating yields 4003 characters (the
`". "` separator is dropped and `".\n\n"` is inserted), not the original
section. -/
theorem content_preservation_claim_false :
    MaxChunkTokens < EstimateTokens exSec.content ∧
    (SubdivideChunk exSec [lit "Pg"] []).map (fun c => c.content) =
      [exU1, lastN overlapChars exU1 ++ lit "\n\n" ++ exU2] ∧
    reconParts ((SubdivideChunk exSec [lit "Pg"] []).map (fun c => c.content))
      overlapChars ≠ exSec.content := by
  have hclen : exSec.content.length = 4002 := by
    rw [show exSec.content =
      (List.replicate 2000 'a' ++ lit ". ") ++ List.replicate 2000 'b' from rfl,
      List.length_append, List.length_append, List.length_replicate,
      List.length_replicate]
    rfl
  have hmap : (SubdivideChunk exSec [lit "Pg"] []).map (fun c => c.content) =
      [exU1, lastN overlapChars exU1 ++ lit "\n\n" ++ exU2] := by
    rw [subdivide_exSec, List.map_cons, List.map_cons, List.map_nil,
      (mkSub_content exSec [lit "Pg"] [] 0 exU1).1,
      (mkSub_content exSec [lit "Pg"] [] 1 _).1]
  refine ⟨?_, hmap, ?_⟩
  · have h4 : EstimateTokens exSec.content = exSec.content.length / CharsPerToken := rfl
    rw [h4, hclen]
    decide
  · intro heq
    rw [hmap,
      show reconParts [exU1, lastN overlapChars exU1 ++ lit "\n\n" ++ exU2]
          overlapChars =
        exU1 ++ (lastN overlapChars exU1 ++ lit "\n\n" ++ exU2).drop overlapChars
        from rfl] at heq
    have hlen := congrArg List.length heq
    simp only [List.length_append, List.length_drop, lastN_len_exU1, exU1_len,
      show (lit "\n\n" : Str).length = 2 from rfl,
      show exU2.length = 2000 from by unfold exU2; rw [List.length_replicate],
      hclen] at hlen
    rw [overlapChars_eq] at hlen
    omega

/-! ## Markup-leak lemmas (`hasJoinPair` calculus and field tracking) -/

theorem hasJoinPair_cons2 (a b : Char) (t : Str) :
    hasJoinPair (a :: b :: t) =
      (((a = ']' : Bool) && (b = '(' : Bool)) || hasJoinPair (b :: t)) := rfl

theorem hasJoinPair_no_rb :
    ∀ (s : Str), (∀ c ∈ s, (c = ']' : Bool) = false) → hasJoinPair s = false := by
  intro s
  induction s with
  | nil => intro _; rfl
  | cons a t ih =>
    intro h
    cases t with
    | nil => rfl
    | cons b t2 =>
      rw [hasJoinPair_cons2, h a (List.mem_cons_self _ _), Bool.false_and,
        Bool.false_or]
      exact ih (fun c hc => h c (List.mem_cons_of_mem _ hc))

theorem hasJoinPair_hash_cons (y : Str) (hy : hasJoinPair y = false) :
    hasJoinPair ('#' :: y) = false := by
  cases y with
  | nil => rfl
  | cons c t =>
    rw [hasJoinPair_cons2, hy]
    rfl

theorem hasJoinPair_append_hash :
    ∀ (x y : Str), hasJoinPair x = false → hasJoinPair y = false →
      hasJoinPair (x ++ '#' :: y) = false := by
  intro x
  induction x with
  | nil =>
    intro y _ hy
    rw [List.nil_append]
    exact hasJoinPair_hash_cons y hy
  | cons a t ih =>
    intro y hx hy
    rw [List.cons_append]
    cases t with
    | nil =>
      rw [List.nil_append, hasJoinPair_cons2, hasJoinPair_hash_cons y hy,
        show ('#' = '(' : Bool) = false from rfl, Bool.and_false, Bool.or_false]
    | cons b t2 =>
      rw [List.cons_append, hasJoinPair_cons2]
      have hx2 : (((a = ']' : Bool) && (b = '(' : Bool)) ||
        hasJoinPair (b :: t2)) = false := hx
      have hsplit := Bool.or_eq_false_iff.mp hx2
      rw [hsplit.1, Bool.false_or]
      have hrec := ih y hsplit.2 hy
      rw [List.cons_append] at hrec
      exact hrec

theorem createAnchor_clean (t : Str) : hasJoinPair (CreateAnchor t) = false := by
  apply hasJoinPair_no_rb
  intro c hc
  have hp := List.of_mem_filter hc
  by_contra hne
  simp only [Bool.not_eq_false, decide_eq_true_eq] at hne
  subst hne
  exact absurd hp (by decide)

theorem enrich_url (c : DocChunk) (bc : List Str) (url : Str) :
    (EnrichMetadata c bc url).url = c.url ∨ (EnrichMetadata c bc url).url = url ∨
    (EnrichMetadata c bc url).url = url ++ '#' :: CreateAnchor c.subcategory := by
  unfold EnrichMetadata
  dsimp only
  split_ifs <;>
    first
      | exact Or.inl rfl
      | exact Or.inr (Or.inl rfl)
      | exact Or.inr (Or.inr rfl)

theorem mkSub_page_category (chunk : DocChunk) (bc : List Str) (url : Str)
    (i : Nat) (cnt : Str) :
    (mkSub chunk bc url i cnt).page = chunk.page ∧
    (mkSub chunk bc url i cnt).category = chunk.category := by
  unfold mkSub
  refine ⟨?_, ?_⟩
  · rw [(enrich_fields _ bc url).2.1, (improve_fields _ _ _).2.1]
  · rw [(enrich_fields _ bc url).2.2.1, (improve_fields _ _ _).2.2.1]

theorem mkSub_url (chunk : DocChunk) (bc : List Str) (url : Str) (i : Nat)
    (cnt : Str) :
    (mkSub chunk bc url i cnt).url = [] ∨ (mkSub chunk bc url i cnt).url = url ∨
    ∃ t, (mkSub chunk bc url i cnt).url = url ++ '#' :: CreateAnchor t := by
  unfold mkSub
  have h := enrich_url (improveSubchunkTitle
    { id := chunk.id ++ lit "_sub" ++ natStr i, page := chunk.page,
      category := chunk.category, subcategory := chunk.subcategory,
      content := cnt } chunk.category i) bc url
  rcases h with h1 | h1 | h1
  · left
    rw [h1, (improve_fields _ _ _).2.2.2.2.1]
  · right; left; exact h1
  · right; right; exact ⟨_, h1⟩

theorem subdivide_clean (chunk : DocChunk) (bc : List Str) (url : Str)
    (hp : hasJoinPair chunk.page = false)
    (hcat : hasJoinPair chunk.category = false)
    (hcu : hasJoinPair chunk.url = false)
    (hu : hasJoinPair url = false) :
    ∀ c ∈ SubdivideChunk chunk bc url, Clean3 c := by
  intro c hc
  by_cases h : EstimateTokens chunk.content ≤ MaxChunkTokens
  · unfold SubdivideChunk at hc
    rw [if_pos h] at hc
    have hce := List.mem_singleton.mp hc
    subst hce
    refine ⟨?_, ?_, ?_⟩
    · rw [(enrich_fields chunk bc url).2.1]; exact hp
    · rw [(enrich_fields chunk bc url).2.2.1]; exact hcat
    · rcases enrich_url chunk bc url with h1 | h1 | h1
      · rw [h1]; exact hcu
      · rw [h1]; exact hu
      · rw [h1]
        exact hasJoinPair_append_hash url (CreateAnchor chunk.subcategory) hu
          (createAnchor_clean _)
  · obtain ⟨i, hi⟩ := List.mem_iff_get?.mp hc
    obtain ⟨cnt, hcnt⟩ := subdivide_shape chunk bc url (Nat.not_le.mp h) i c hi
    subst hcnt
    refine ⟨?_, ?_, ?_⟩
    · rw [(mkSub_page_category chunk bc url i cnt).1]; exact hp
    · rw [(mkSub_page_category chunk bc url i cnt).2]; exact hcat
    · rcases mkSub_url chunk bc url i cnt with h1 | h1 | ⟨t, h1⟩
      · rw [h1]; rfl
      · rw [h1]; exact hu
      · rw [h1]
        exact hasJoinPair_append_hash url (CreateAnchor t) hu
          (createAnchor_clean t)

theorem save_clean (st : PSt) (h : PClean st) : PClean (saveCurrentChunk st) := by
  unfold saveCurrentChunk
  rcases hcur : st.cur with _ | c
  · simp only [hcur]
    exact h
  · simp only [hcur]
    by_cases hcont : st.content ≠ []
    · rw [if_pos hcont]
      obtain ⟨hfin, hcurc, hbc, hurl⟩ := h
      have hc3 := hcurc c hcur
      have hsubs : ∀ s ∈ SubdivideChunk { c with content := st.content }
          st.bc st.baseURL, Clean3 s := by
        apply subdivide_clean
        · exact hc3.1
        · exact hc3.2.1
        · exact hc3.2.2
        · exact hurl
      refine ⟨?_, fun c2 hc2 => hcurc c2 (hcur.trans hc2), hbc, hurl⟩
      intro x hx
      have hx2 : x ∈ st.finalChunks ++ _ := hx
      rcases List.mem_append.mp hx2 with h1 | h1
      · exact hfin x h1
      · refine foldl_preserve
          (fun acc : List DocChunk × Nat => ∀ y ∈ acc.1, Clean3 y)
          _ _ ?_ ([], st.chunkID) ?_ x h1
        · intro a b hb hinv y hy
          by_cases hid : containsSub b.id (lit "_sub")
          · rw [if_pos hid] at hy
            have hy2 : y ∈ a.1 ++ [b] := hy
            rcases List.mem_append.mp hy2 with h2 | h2
            · exact hinv y h2
            · rw [List.mem_singleton.mp h2]
              exact hsubs b hb
          · rw [if_neg hid] at hy
            have hy2 : y ∈ a.1 ++ [{ b with id := lit "chunk_" ++ natStr a.2 }] := hy
            rcases List.mem_append.mp hy2 with h2 | h2
            · exact hinv y h2
            · rw [List.mem_singleton.mp h2]
              exact hsubs b hb
        · intro y hy
          exact absurd hy (List.not_mem_nil y)
    · rw [if_neg hcont]
      exact h

theorem startsWith_hash_of_hh :
    ∀ (line : Str), startsWithL line (lit "##") = true →
      startsWithL line (lit "#") = true := by
  intro line h
  cases line with
  | nil => exact absurd h (by decide)
  | cons a t =>
    have h2 : (('#' = a : Bool) && startsWithL t (lit "#")) = true := h
    show (('#' = a : Bool) && startsWithL t []) = true
    rw [startsWithL_nil_pat, Bool.and_true]
    have h3 := h2
    simp only [Bool.and_eq_true] at h3
    exact h3.1

theorem parseLine_clean (st : PSt) (rawLine : Str) (h : PClean st)
    (hline : startsWithL (trimSpace rawLine) (lit "#") = true →
      hasJoinPair (StripMarkdownLinks
        (trimSpace (dropHashes (trimSpace rawLine)))) = false ∧
      hasJoinPair (ExtractURLFromMarkdown
        (trimSpace (dropHashes (trimSpace rawLine)))) = false) :
    PClean (parseLine st rawLine) := by
  unfold parseLine
  dsimp only
  by_cases h2 : startsWithL (trimSpace rawLine) (lit "##") = true ∧
      ¬ startsWithL (trimSpace rawLine) (lit "###") = true
  · rw [if_pos h2]
    obtain ⟨hfin, hcurc, hbc, hurl⟩ := save_clean st h
    have htitle := (hline (startsWith_hash_of_hh _ h2.1)).1
    have hbc2 : ∀ t ∈ (if 1 < (saveCurrentChunk st).bc.length then
        (saveCurrentChunk st).bc.take 1 else (saveCurrentChunk st).bc) ++
        [StripMarkdownLinks (trimSpace (dropHashes (trimSpace rawLine)))],
        hasJoinPair t = false := by
      intro t ht
      rcases List.mem_append.mp ht with h3 | h3
      · by_cases hlen : 1 < (saveCurrentChunk st).bc.length
        · rw [if_pos hlen] at h3
          exact hbc t (List.take_subset _ _ h3)
        · rw [if_neg hlen] at h3
          exact hbc t h3
      · rw [List.mem_singleton.mp h3]
        exact htitle
    refine ⟨hfin, ?_, hbc2, hurl⟩
    intro c2 hc2
    have hc2e := Option.some.inj hc2
    subst hc2e
    refine ⟨?_, htitle, rfl⟩
    rcases hhead : (if 1 < (saveCurrentChunk st).bc.length then
        (saveCurrentChunk st).bc.take 1 else (saveCurrentChunk st).bc) ++
        [StripMarkdownLinks (trimSpace (dropHashes (trimSpace rawLine)))]
      with _ | ⟨x, t⟩
    · exact absurd (congrArg List.length hhead) (by simp)
    · show hasJoinPair ((x :: t).headD []) = false
      rw [List.headD_cons]
      refine hbc2 x ?_
      rw [hhead]
      exact List.mem_cons_self x t
  · rw [if_neg h2]
    by_cases h1 : startsWithL (trimSpace rawLine) (lit "#") = true ∧
        ¬ startsWithL (trimSpace rawLine) (lit "##") = true
    · rw [if_pos h1]
      obtain ⟨hfin, hcurc, hbc, hurl⟩ := save_clean st h
      have htitle := (hline h1.1).1
      have hu2 := (hline h1.1).2
      refine ⟨hfin, ?_, ?_, hu2⟩
      · intro c2 hc2
        have hc2e := Option.some.inj hc2
        subst hc2e
        exact ⟨htitle, htitle, rfl⟩
      · intro t ht
        rw [List.mem_singleton.mp ht]
        exact htitle
    · rw [if_neg h1]
      by_cases h3 : trimSpace rawLine ≠ [] ∧ st.cur.isSome = true
      · rw [if_pos h3]
        exact h
      · rw [if_neg h3]
        exact h

/-- C7 (amended): if every markdown heading line of the document (any
line whose trimmed form starts with `#`) has a clean-title transform
output and an extracted URL free of the link-markup substring `](`, then
no chunk produced by `ParseDocumentation` carries `](` in its `page`,
`category`, or `url` field.  (The original claim is false on two points:
a heading whose `](` is not part of a complete `[text](target)` link
passes through `StripMarkdownLinks` into `page`/`category`, and the
`subcategory` of a sub-chunk may take a `###` heading found inside raw
content, which no up-front transform touches; see the counterexample.) -/
theorem no_markup_leak (doc : Str)
    (h : ∀ rawLine ∈ splitOnL (lit "\n") doc,
      startsWithL (trimSpace rawLine) (lit "#") = true →
      hasJoinPair (StripMarkdownLinks
        (trimSpace (dropHashes (trimSpace rawLine)))) = false ∧
      hasJoinPair (ExtractURLFromMarkdown
        (trimSpace (dropHashes (trimSpace rawLine)))) = false) :
    ∀ c ∈ ParseDocumentation doc,
      hasJoinPair c.page = false ∧ hasJoinPair c.category = false ∧
      hasJoinPair c.url = false := by
  intro c hc
  have hinv : PClean ((splitOnL (lit "\n") doc).foldl parseLine {}) := by
    apply foldl_preserve PClean parseLine _ ?_ _ ?_
    · intro a b hb ha
      exact parseLine_clean a b ha (h b hb)
    · exact ⟨fun c2 hc2 => absurd hc2 (List.not_mem_nil c2),
        fun c2 hc2 => Option.noConfusion hc2,
        fun t ht => absurd ht (List.not_mem_nil t), rfl⟩
  exact (save_clean _ hinv).1 c hc

/-- C7 witness: the amended no-leak property at the concrete two-line
document `"# T\nhello"`, whose single heading is clean. -/
theorem no_markup_leak_witness :
    (∀ rawLine ∈ splitOnL (lit "\n") (lit "# T\nhello"),
      startsWithL (trimSpace rawLine) (lit "#") = true →
      hasJoinPair (StripMarkdownLinks
        (trimSpace (dropHashes (trimSpace rawLine)))) = false ∧
      hasJoinPair (ExtractURLFromMarkdown
        (trimSpace (dropHashes (trimSpace rawLine)))) = false) ∧
    (∀ c ∈ ParseDocumentation (lit "# T\nhello"),
      hasJoinPair c.page = false ∧ hasJoinPair c.category = false ∧
      hasJoinPair c.url = false) :=
  ⟨by decide, no_markup_leak (lit "# T\nhello") (by decide)⟩

/-- C7 counterexample: the document `"# a](b\nhello"` produces a chunk
whose `page` (and `category`) is `"a](b"`: the heading's `](` is not part
of a complete markdown link, so `StripMarkdownLinks` passes it through
unchanged and it leaks into the fields. -/
theorem markup_leak_claim_false :
    ¬ (∀ (doc : Str), ∀ c ∈ ParseDocumentation doc,
        hasJoinPair c.page = false ∧ hasJoinPair c.category = false ∧
        hasJoinPair c.subcategory = false ∧ hasJoinPair c.url = false) := by
  intro hclaim
  have hd := hclaim (lit "# a](b\nhello")
  revert hd
  decide

/-! ## C9: search result limit -/

/-- C9: for every search call, the effective result limit passed to the
index is at most 20; it equals `input.MaxResults` when that value is
non-zero and at most 20, and equals the default 10 when `max_results` is
unspecified (zero) or exceeds 20. -/
theorem search_limit_at_most_twenty (m : Int) :
    effectiveMaxResults m ≤ 20 ∧
    ((m = 0 ∨ 20 < m) → effectiveMaxResults m = 10) ∧
    (¬ (m = 0 ∨ 20 < m) → effectiveMaxResults m = m) := by
  unfold effectiveMaxResults
  split_ifs with h <;> refine ⟨?_, fun h2 => ?_, fun h2 => ?_⟩ <;> first | rfl | omega

/-- C9 witness: the limit rules evaluated at the concrete inputs 7 and 25. -/
theorem search_limit_witness :
    (¬ ((7 : Int) = 0 ∨ 20 < (7 : Int)) → effectiveMaxResults 7 = 7) ∧
    (((25 : Int) = 0 ∨ 20 < (25 : Int)) → effectiveMaxResults 25 = 10) ∧
    effectiveMaxResults 25 ≤ 20 :=
  ⟨(search_limit_at_most_twenty 7).2.2,
   (search_limit_at_most_twenty 25).2.1,
   (search_limit_at_most_twenty 25).1⟩

/-! ## C5: lock staleness -/

/-- C5: if the lock file names the PID of a process that is not running,
`acquireLock` removes the stale record, writes its own PID, and returns
success immediately without sleeping; if the lock file already names the
calling process's own PID, `acquireLock` returns success immediately
without any retry or modification.  (The caller's own process is running,
which rules out the stale path naming our own PID.) -/
theorem lock_staleness (st : LockSt) (s : Str) (p : Nat)
    (hlock : st.lockContent = some s)
    (hpid : parsePid (trimSpace s) = some p)
    (halive : st.running st.ourPID = true) :
    (st.running p = false →
      acquireLock st =
        (.ok (), { st with lockContent := some (natStr st.ourPID) }, 0)) ∧
    (p = st.ourPID → acquireLock st = (.ok (), st, 0)) := by
  constructor
  · intro hdead
    have hne : (p == st.ourPID) = false := by
      cases hpq : p == st.ourPID
      · rfl
      · have hp : p = st.ourPID := beq_iff_eq.mp hpq
        rw [hp, halive] at hdead
        exact Bool.noConfusion hdead
    have hcs : cleanStaleLock st = (.ok (), { st with lockContent := none }) := by
      simp [cleanStaleLock, hlock, hpid, hdead]
    simp [acquireLock, hlock, hpid, hne, acquireLoop, hcs]
  · intro heq
    have hb : (p == st.ourPID) = true := beq_iff_eq.mpr heq
    simp [acquireLock, hlock, hpid, hb]

/-- C5 witness: a stale lock naming dead PID 7 is replaced by our PID 42
without sleeping, and a lock naming our own PID 42 is kept untouched. -/
theorem lock_staleness_witness :
    (acquireLock
        { lockContent := some (lit "7"), running := fun q => q == 42, ourPID := 42 } =
      (.ok (),
       { lockContent := some (natStr 42), running := fun q => q == 42, ourPID := 42 }, 0)) ∧
    (acquireLock
        { lockContent := some (lit "42"), running := fun q => q == 42, ourPID := 42 } =
      (.ok (),
       { lockContent := some (lit "42"), running := fun q => q == 42, ourPID := 42 }, 0)) := by
  constructor
  · exact (lock_staleness _ (lit "7") 7 rfl (by decide) (by decide)).1 (by decide)
  · exact (lock_staleness _ (lit "42") 42 rfl (by decide) (by decide)).2 (by decide)

/-! ## C8: refresh freshness no-op -/

/-- Helper: a `refresh(force=false)` call against a fresh cache is a
no-op that reports `updated:false`. -/
theorem refresh_fresh_noop (st : RefreshSt) (t m : Nat)
    (h1 : st.metaMod = some m) (h2 : t - m ≤ cacheTTL) :
    RefreshDocumentationIndex false st t =
      (.ok { updated := false, lastUpdate := some m, chunksIndexed := 0 }, st, 0) := by
  have hn : needsRefresh st t = false := by
    simp only [needsRefresh, h1, decide_eq_false_iff_not]
    omega
  simp only [RefreshDocumentationIndex, h1, hn, Bool.not_false, Bool.and_self]

/-- C8: invoking refresh twice in a row with `force=false` while the
cache metadata is younger than the freshness window makes the second call
perform zero units of rebuild work (no download, parse, or indexing),
leave the state unchanged, and return `updated:false`. -/
theorem refresh_twice_within_window (st : RefreshSt) (t1 t2 m : Nat)
    (hmeta : ((RefreshDocumentationIndex false st t1).2.1).metaMod = some m)
    (hfresh : t2 - m ≤ cacheTTL) :
    RefreshDocumentationIndex false ((RefreshDocumentationIndex false st t1).2.1) t2 =
      (.ok { updated := false, lastUpdate := some m, chunksIndexed := 0 },
       (RefreshDocumentationIndex false st t1).2.1, 0) :=
  refresh_fresh_noop _ _ _ hmeta hfresh

/-- C8 witness: a concrete fresh cache (metadata written at time 0,
re-queried at time 5 within the 7-day window) refreshed twice. -/
theorem refresh_twice_witness :
    RefreshDocumentationIndex false
        ((RefreshDocumentationIndex false
          { metaMod := some 0, docsContent := [], remoteDoc := [],
            downloadOK := true, index := none } 0).2.1) 5 =
      (.ok { updated := false, lastUpdate := some 0, chunksIndexed := 0 },
       (RefreshDocumentationIndex false
          { metaMod := some 0, docsContent := [], remoteDoc := [],
            downloadOK := true, index := none } 0).2.1, 0) :=
  refresh_twice_within_window _ 0 5 0 (by decide) (by decide)

/-! ## C4: insertion failure leaves the published state untouched -/

/-- The error kinds raised by a failing `batch.Index` or `newIndex.Batch`
call (chunk insertion), as opposed to the close/rename/open phases. -/
def isInsertionErr : IdxErr → Bool
  | .insertErr _ => true
  | .batchErr _ => true
  | .finalBatchErr => true
  | _ => false

/-- C4: if any chunk insertion fails during `indexChunks`, the function
removes the temporary index directory and returns an error, and the
previously published index directory and the holder's current index
pointer are left exactly as they were before the call. -/
theorem index_failure_state_unchanged (env : IdxEnv) (chunks : List DocChunk)
    (st : IdxSt) (e : IdxErr)
    (herr : (indexChunks env chunks st).1 = .error e)
    (hkind : isInsertionErr e = true) :
    (indexChunks env chunks st).2.temp = none ∧
    (indexChunks env chunks st).2.published = st.published ∧
    (indexChunks env chunks st).2.holderCurrent = st.holderCurrent := by
  unfold indexChunks at *
  cases hL : idxLoop env chunks 0 [] [] with
  | error e' => simp [hL]
  | ok pr =>
    simp only [hL] at herr ⊢
    by_cases h1 : pr.2 ≠ [] ∧ env.finalBatchFails
    · simp [h1]
    · simp only [if_neg h1] at herr ⊢
      by_cases h2 : env.closeFails
      · simp only [h2, if_pos rfl] at herr
        cases herr
        simp [isInsertionErr] at hkind
      · simp only [h2, Bool.false_eq_true, if_neg (by exact fun h => h)] at herr ⊢
        by_cases h3 : env.renameFails
        · simp only [h3, if_pos rfl] at herr
          cases herr
          simp [isInsertionErr] at hkind
        · simp only [h3, Bool.false_eq_true, if_neg (by exact fun h => h)] at herr ⊢
          by_cases h4 : env.openFails
          · simp only [h4, if_pos rfl] at herr
            cases herr
            simp [isInsertionErr] at hkind
          · simp only [h4, Bool.false_eq_true, if_neg (by exact fun h => h)] at herr
            cases herr

/-- C4 witness: a run whose very first insertion fails removes the
temporary directory and leaves the published directory and holder
pointer of a concrete state unchanged. -/
theorem index_failure_witness :
    ((indexChunks
        { insertFails := fun _ => true, batchFails := fun _ => false,
          finalBatchFails := false, closeFails := false,
          renameFails := false, openFails := false }
        [{ id := lit "c0" }]
        { published := some [], temp := none,
          holderCurrent := some [], versionFile := some 2 }).2.temp = none) ∧
    ((indexChunks
        { insertFails := fun _ => true, batchFails := fun _ => false,
          finalBatchFails := false, closeFails := false,
          renameFails := false, openFails := false }
        [{ id := lit "c0" }]
        { published := some [], temp := none,
          holderCurrent := some [], versionFile := some 2 }).2.published = some []) := by
  have h := index_failure_state_unchanged
    { insertFails := fun _ => true, batchFails := fun _ => false,
      finalBatchFails := false, closeFails := false,
      renameFails := false, openFails := false }
    [{ id := lit "c0" }]
    { published := some [], temp := none,
      holderCurrent := some [], versionFile := some 2 }
    (.insertErr 0) (by rfl) (by rfl)
  exact ⟨h.1, h.2.1⟩

end DocEngine
